import Mathlib

/-!
# Wireless Smoke & Heat Detector GS 558 — decoder (`src/devices/smoke_gs558.c`)

A shallow embedding of `reverse_byte` and `smoke_gs558_callback`, followed by the
properties established for them.

Conventions of the embedding:

* `unsigned char` / `uint8_t` values are natural numbers; every assignment to an
  `unsigned char` is an explicit `% 256`.  The arithmetic inside an expression is done in
  `int` as in C; all intermediate values stay far below `2^31`, so no wrap-around occurs.
* The bit buffer is a list of rows; `num_rows` is the length of the list.
* The callback returns the C return value together with the record handed to
  `data_acquired_handler` (`none` when the handler is not called).
-/

namespace smoke_gs558

/-! ## Data model -/

/-- Modelled from the spec: one Row of the bit buffer (the declaration in `bitbuffer.h` is
not under src/): its bit-length `bits_per_row[r]` and the bytes stored in `bb[r]`. -/
structure bitrow where
  bits_per_row : Nat
  bb : List Nat
deriving DecidableEq

/-- Modelled from the spec: the type `bitbuffer_t` (declared in `bitbuffer.h`, which is not
under src/).  A Burst is an ordered sequence of Rows, each Row an ordered sequence of bits
packed into bytes with an explicit bit-length. -/
abbrev bitbuffer_t := List bitrow

/-- The field `bitbuffer->num_rows`. -/
def num_rows (bitbuffer : bitbuffer_t) : Nat := bitbuffer.length

/-- The read `b[i]` for `uint8_t *b = bitbuffer->bb[r]`.  A position past the bytes listed
for the row reads as 0. -/
def byte_at (row : bitrow) (i : Nat) : Nat := row.bb.getD i 0

/-- The record built by `data_make` (lines 105–112). -/
structure data_t where
  time : String
  model : String
  id : Nat
  unit : Nat
  learn : Nat
  code : String
deriving DecidableEq

/-! ## `reverse_byte` (lines 43–48) -/

/-- `static unsigned char reverse_byte(unsigned char b)`: the argument and each of the three
assignments are converted to `unsigned char`. -/
def reverse_byte (b : Nat) : Nat :=
  let b := b % 256
  let b := ((b &&& 0xF0) >>> 4 ||| (b &&& 0x0F) <<< 4) % 256
  let b := ((b &&& 0xCC) >>> 2 ||| (b &&& 0x33) <<< 2) % 256
  let b := ((b &&& 0xAA) >>> 1 ||| (b &&& 0x55) <<< 1) % 256
  b

/-! ## The row normalizer (loop of lines 65–79) -/

/-- Condition of the `if` at lines 69–70: the learn pattern. -/
def is_learn_row (row : bitrow) : Bool :=
  decide (row.bits_per_row ≥ 24) && decide (byte_at row 0 = 0x55)
    && decide (byte_at row 1 = 0x55) && decide (byte_at row 2 = 0x55)

/-- One iteration of the loop at lines 65–79 on row `r`: `learn` is the counter before the
iteration; the result is the counter and the row afterwards.  The two `if` statements run one
after the other, the second one reading the bit-length the first may have written. -/
def normalize_row (learn : Nat) (row : bitrow) : Nat × bitrow :=
  -- count learn pattern and strip
  let s1 : Nat × Nat :=
    if is_learn_row row then (learn + 1, 0) else (learn, row.bits_per_row)
  -- strip end-of-packet pulse
  let bits : Nat :=
    if (s1.2 = 26 ∨ s1.2 = 27) ∧ byte_at row 3 = 0 then 24 else s1.2
  (s1.1, { row with bits_per_row := bits })

/-- The loop `for (r = 0; r < bitbuffer->num_rows; ++r)` of lines 65–79, started with the
counter `learn`. -/
def normalize_rows : Nat → List bitrow → Nat × List bitrow
  | learn, [] => (learn, [])
  | learn, row :: rest =>
    let s := normalize_row learn row
    let t := normalize_rows s.1 rest
    (t.1, s.2 :: t.2)

/-! ## The repeated-frame finder -/

/-- Modelled from the spec: the row comparison used by `bitbuffer_find_repeated_row`
(`bitbuffer.c`, not under src/).  Two rows match when both have bit-length exactly `bits` and
are byte-for-byte identical over the `(bits + 7) / 8` bytes that hold those bits. -/
def compare_rows (bits : Nat) (row_a row_b : bitrow) : Bool :=
  decide (row_a.bits_per_row = bits) && decide (row_b.bits_per_row = bits)
    && (List.range ((bits + 7) / 8)).all (fun i => decide (byte_at row_a i = byte_at row_b i))

/-- Modelled from the spec: the repeat count of a row (`bitbuffer.c`, not under src/): how
many rows of the Burst match it, itself included. -/
def count_repeats (bitbuffer : bitbuffer_t) (bits : Nat) (row : bitrow) : Nat :=
  bitbuffer.countP (compare_rows bits row)

/-- Modelled from the spec: the scan of `bitbuffer_find_repeated_row` (`bitbuffer.c`, not
under src/) over the rows `rows`, the first of which has index `i`. -/
def find_repeated_from (bitbuffer : bitbuffer_t) (min_repeats min_bits : Nat) :
    List bitrow → Nat → Int
  | [], _ => -1
  | row :: rest, i =>
    if row.bits_per_row = min_bits ∧ min_repeats ≤ count_repeats bitbuffer min_bits row then
      (i : Int)
    else
      find_repeated_from bitbuffer min_repeats min_bits rest (i + 1)

/-- Modelled from the spec: `bitbuffer_find_repeated_row` (`bitbuffer.c`, not under src/).
Scan the rows in order; for each row with bit-length exactly `min_bits`, count the rows (of
that bit-length too) that are byte-for-byte identical to it, itself included.  The first row
reaching `min_repeats` is the winning row and its index is returned; if no row reaches the
threshold the result is negative. -/
def bitbuffer_find_repeated_row (bitbuffer : bitbuffer_t) (min_repeats min_bits : Nat) : Int :=
  find_repeated_from bitbuffer min_repeats min_bits bitbuffer 0

/-! ## Polarity inversion -/

/-- Modelled from the spec: `bitbuffer_invert` on one row (`bitbuffer.c`, not under src/).
The polarity of each of the row's `bits_per_row` bits is inverted; the bit-length and the
storage bits past the bit-length are kept. -/
def invert_row (row : bitrow) : bitrow :=
  { row with
    bb := row.bb.enum.map fun cv =>
      if 8 * (cv.1 + 1) ≤ row.bits_per_row then cv.2 ^^^ 0xFF
      else if 8 * cv.1 < row.bits_per_row then
        cv.2 ^^^ ((0xFF <<< (8 * (cv.1 + 1) - row.bits_per_row)) &&& 0xFF)
      else cv.2 }

/-- Modelled from the spec: `bitbuffer_invert` (`bitbuffer.c`, not under src/): the raw 0/1
polarity of the demodulated rows is logically inverted, row by row. -/
def bitbuffer_invert (bitbuffer : bitbuffer_t) : bitbuffer_t :=
  bitbuffer.map invert_row

/-! ## Field decoding and output (lines 86–112) -/

/-- The `printf` conversion `%02x`: lowercase hexadecimal, zero-padded to at least two
digits. -/
def fmt_02x (v : Nat) : List Char :=
  let ds := Nat.toDigits 16 v
  List.replicate (2 - ds.length) '0' ++ ds

/-- Line 95, on the reversed first byte: `unit = b[0] & 0x1f`. -/
def unit_of (r0 : Nat) : Nat := r0 &&& 0x1f

/-- Line 96, on the reversed bytes:
`id = ((b[2] & 0x0f) << 11) | (b[1] << 3) | (b[0] >> 5)`. -/
def id_of (r0 r1 r2 : Nat) : Nat :=
  ((r2 &&& 0x0f) <<< 11) ||| (r1 <<< 3) ||| (r0 >>> 5)

/-- Line 101: `sprintf(code_str, "%02x%02x%02x", b[2], b[1], b[0])` on the reversed bytes. -/
def code_of (r0 r1 r2 : Nat) : String :=
  String.mk (fmt_02x r2 ++ fmt_02x r1 ++ fmt_02x r0)

/-- Lines 86–115: decoding of the winning row `b = bitbuffer->bb[r]` with the learn counter
`learn`. -/
def decode_row (time_str : String) (learn : Nat) (b : bitrow) : Int × Option data_t :=
  let b0 := reverse_byte (byte_at b 0)
  let b1 := reverse_byte (byte_at b 1)
  let b2 := reverse_byte (byte_at b 2)
  let unit := unit_of b0 -- 5 bits
  let id := id_of b0 b1 b2 -- 15 bits
  if id = 0 ∨ id = 0x7fff then
    (0, none) -- reject min/max to reduce false positives
  else
    (1, some
      { time := time_str
        model := "Smoke detector GS 558"
        id := id
        unit := unit
        learn := if learn > 1 then 1 else 0
        code := code_of b0 b1 b2 })

/-- `static int smoke_gs558_callback(bitbuffer_t *bitbuffer)` (lines 50–116).

`invert` stands for `bitbuffer_invert` (line 63) and `time_str` for the string written by
`local_time_str` (line 104); both are outside src/.  The first component of the result is the
value returned, the second the record passed to `data_acquired_handler`. -/
def smoke_gs558_callback (invert : bitbuffer_t → bitbuffer_t) (time_str : String)
    (bitbuffer : bitbuffer_t) : Int × Option data_t :=
  if num_rows bitbuffer < 3 then
    (0, none) -- truncated transmission
  else
    let bitbuffer := invert bitbuffer
    let n := normalize_rows 0 bitbuffer
    let learn := n.1
    let bitbuffer := n.2
    let r := bitbuffer_find_repeated_row bitbuffer 3 24
    if r < 0 then
      (0, none)
    else
      decode_row time_str learn (bitbuffer.getD r.toNat ⟨0, []⟩)


/-! ## Vocabulary of the properties -/

/-- The rows after inversion and the normalizer loop (the buffer at line 81). -/
def normalized (invert : bitbuffer_t → bitbuffer_t) (bitbuffer : bitbuffer_t) : bitbuffer_t :=
  (normalize_rows 0 (invert bitbuffer)).2

/-- The value of the counter `learn` after the normalizer loop. -/
def learn_count (invert : bitbuffer_t → bitbuffer_t) (bitbuffer : bitbuffer_t) : Nat :=
  (normalize_rows 0 (invert bitbuffer)).1

/-- The value `r` assigned at line 81. -/
def winning_index (invert : bitbuffer_t → bitbuffer_t) (bitbuffer : bitbuffer_t) : Int :=
  bitbuffer_find_repeated_row (normalized invert bitbuffer) 3 24

/-- The row `bitbuffer->bb[r]` of line 86: the winning Frame is its first three bytes. -/
def winning_row (invert : bitbuffer_t → bitbuffer_t) (bitbuffer : bitbuffer_t) : bitrow :=
  (normalized invert bitbuffer).getD (winning_index invert bitbuffer).toNat ⟨0, []⟩

/-- The id decoded from the first three bytes of a row (lines 91–96). -/
def row_id (b : bitrow) : Nat :=
  id_of (reverse_byte (byte_at b 0)) (reverse_byte (byte_at b 1)) (reverse_byte (byte_at b 2))

/-- A pairing-acknowledgment row: bit-length at least 24 and first three bytes
`0x55 0x55 0x55`. -/
abbrev is_pairing_row (row : bitrow) : Prop :=
  24 ≤ row.bits_per_row ∧ byte_at row 0 = 0x55 ∧ byte_at row 1 = 0x55 ∧ byte_at row 2 = 0x55

/-- The number of pairing-acknowledgment rows among `rows`. -/
def pairing_rows (rows : List bitrow) : Nat :=
  rows.countP (fun row => decide (is_pairing_row row))

/-- The character of the hexadecimal digit `n` in lowercase. -/
def hex_digit (n : Nat) : Char := "0123456789abcdef".toList.getD n '0'

/-- Two-digit lowercase hexadecimal rendering of a byte. -/
def hex_byte (v : Nat) : List Char := [hex_digit (v / 16), hex_digit (v % 16)]

/-- Value of a lowercase hexadecimal digit character (0 for any other character). -/
def hex_digit_value (c : Char) : Nat :=
  if '0' ≤ c ∧ c ≤ '9' then c.toNat - '0'.toNat
  else if 'a' ≤ c ∧ c ≤ 'f' then c.toNat - 'a'.toNat + 10
  else 0

/-- A character string (most significant digit first) read as a base-16 number. -/
def hex_value (s : List Char) : Nat :=
  s.foldl (fun acc c => 16 * acc + hex_digit_value c) 0

/-- Membership in the character set `0-9a-f`. -/
def is_lower_hex (c : Char) : Bool :=
  (decide ('0' ≤ c) && decide (c ≤ '9')) || (decide ('a' ≤ c) && decide (c ≤ 'f'))

/-- Bit `i` of `b` as the number 0 or 1. -/
def bit_of (b i : Nat) : Nat := if b.testBit i then 1 else 0

/-- Bit `t_k` (0 or 1) of the frame `b0 b1 b2` in transmission order: `t_0` is the most
significant bit of `b0`, `t_23` the least significant bit of `b2`. -/
def frame_bit (b0 b1 b2 : Nat) (k : Nat) : Nat :=
  bit_of (if k < 8 then b0 else if k < 16 then b1 else b2) (7 - k % 8)

/-- First reversed byte for the fields `unit` and `id`: `((id & 7) << 5) | unit`. -/
def enc_r0 (unit id : Nat) : Nat := ((id &&& 7) <<< 5) ||| unit

/-- Second reversed byte for the field `id`: `(id >> 3) & 0xFF`. -/
def enc_r1 (id : Nat) : Nat := (id >>> 3) &&& 0xFF

/-- Third reversed byte for the field `id` and the top nibble `h`: `(h << 4) | (id >> 11)`. -/
def enc_r2 (id h : Nat) : Nat := (h <<< 4) ||| (id >>> 11)

/-- The 24-bit row transmitted for `unit`, `id` and top nibble `h`: the mirrors of the three
reversed bytes. -/
def encode_row (unit id h : Nat) : bitrow :=
  ⟨24, [reverse_byte (enc_r0 unit id), reverse_byte (enc_r1 id), reverse_byte (enc_r2 id h)]⟩

/-- What the finder and the field decoder read of a row: its bit-length and its first three
bytes. -/
def row_key (row : bitrow) : Nat × Nat × Nat × Nat :=
  (row.bits_per_row, byte_at row 0, byte_at row 1, byte_at row 2)

/-- A time stamp as `local_time_str` writes it, used in the worked examples. -/
def sample_time : String := "2017-12-27 21:52:07"

/-- The number of rows of bit-length exactly 24 among `rows` whose first three bytes are
those of the row `f`. -/
def frame_count (rows : List bitrow) (f : bitrow) : Nat :=
  rows.countP (fun x => decide (x.bits_per_row = 24 ∧ byte_at x 0 = byte_at f 0 ∧
    byte_at x 1 = byte_at f 1 ∧ byte_at x 2 = byte_at f 2))

/-- The Row Normalizer on one row as the spec words it (section 4.1): the pairing rule, else
the truncation rule, else the row is left unchanged. -/
def normalize_row_spec (learnCount : Nat) (row : bitrow) : Nat × bitrow :=
  if row.bits_per_row ≥ 24 ∧ byte_at row 0 = 0x55 ∧ byte_at row 1 = 0x55 ∧
      byte_at row 2 = 0x55 then
    (learnCount + 1, { row with bits_per_row := 0 })
  else if (row.bits_per_row = 26 ∨ row.bits_per_row = 27) ∧ byte_at row 3 = 0 then
    (learnCount, { row with bits_per_row := 24 })
  else
    (learnCount, row)

/-- The Row Normalizer of the spec (section 4.1) over the rows in their original order. -/
def normalize_rows_spec : Nat → List bitrow → Nat × List bitrow
  | learnCount, [] => (learnCount, [])
  | learnCount, row :: rest =>
    let s := normalize_row_spec learnCount row
    let t := normalize_rows_spec s.1 rest
    (t.1, s.2 :: t.2)

/-- The truncation rule applies to the row as captured: bit-length 26 or 27 and 4th byte 0. -/
abbrev is_truncated_row (row : bitrow) : Prop :=
  (row.bits_per_row = 26 ∨ row.bits_per_row = 27) ∧ byte_at row 3 = 0

/-- Every value stored in the rows is a `uint8_t`. -/
abbrev bytes_ok (bitbuffer : bitbuffer_t) : Prop :=
  ∀ row ∈ bitbuffer, ∀ x ∈ row.bb, x < 256

/-! ## The callback with the bounds of the row storage checked -/

/-- The read `b[i]` with the bound of the row's storage checked: `none` stands for an access
outside the bytes the row stores. -/
def read_byte (row : bitrow) (i : Nat) : Option Nat := row.bb[i]?

/-- Condition of the `if` at lines 69–70 with every read checked: the operands of `&&` are
evaluated left to right and the evaluation stops at the first false one. -/
def is_learn_row_checked (row : bitrow) : Option Bool :=
  if row.bits_per_row ≥ 24 then
    (read_byte row 0).bind fun b0 =>
      if b0 = 0x55 then
        (read_byte row 1).bind fun b1 =>
          if b1 = 0x55 then
            (read_byte row 2).bind fun b2 => some (decide (b2 = 0x55))
          else some false
      else some false
  else some false

/-- One iteration of the loop at lines 65–79 with every read checked; `b[3]` is read only
when the bit-length left by the first `if` is 26 or 27. -/
def normalize_row_checked (learn : Nat) (row : bitrow) : Option (Nat × bitrow) :=
  (is_learn_row_checked row).bind fun c =>
    let s1 : Nat × Nat := if c then (learn + 1, 0) else (learn, row.bits_per_row)
    if s1.2 = 26 ∨ s1.2 = 27 then
      (read_byte row 3).bind fun b3 =>
        some (s1.1, { row with bits_per_row := if b3 = 0 then 24 else s1.2 })
    else
      some (s1.1, { row with bits_per_row := s1.2 })

/-- The loop of lines 65–79 with every read checked. -/
def normalize_rows_checked : Nat → List bitrow → Option (Nat × List bitrow)
  | learn, [] => some (learn, [])
  | learn, row :: rest =>
    (normalize_row_checked learn row).bind fun s =>
      (normalize_rows_checked s.1 rest).bind fun t =>
        some (t.1, s.2 :: t.2)

/-- Lines 86–115 with the accesses to `b[0]`, `b[1]`, `b[2]` checked. -/
def decode_row_checked (time_str : String) (learn : Nat) (b : bitrow) :
    Option (Int × Option data_t) :=
  (read_byte b 0).bind fun x0 =>
    (read_byte b 1).bind fun x1 =>
      (read_byte b 2).bind fun x2 =>
        let b0 := reverse_byte x0
        let b1 := reverse_byte x1
        let b2 := reverse_byte x2
        let unit := unit_of b0
        let id := id_of b0 b1 b2
        if id = 0 ∨ id = 0x7fff then
          some (0, none)
        else
          some (1, some
            { time := time_str
              model := "Smoke detector GS 558"
              id := id
              unit := unit
              learn := if learn > 1 then 1 else 0
              code := code_of b0 b1 b2 })

/-- The callback (lines 50–116) with every access to the row storage checked, the access to
row `r` included: the result is `none` when an access falls outside the storage. -/
def smoke_gs558_callback_checked (invert : bitbuffer_t → bitbuffer_t) (time_str : String)
    (bitbuffer : bitbuffer_t) : Option (Int × Option data_t) :=
  if num_rows bitbuffer < 3 then
    some (0, none)
  else
    let bitbuffer := invert bitbuffer
    (normalize_rows_checked 0 bitbuffer).bind fun n =>
      let r := bitbuffer_find_repeated_row n.2 3 24
      if r < 0 then
        some (0, none)
      else
        (n.2[r.toNat]?).bind fun b => decode_row_checked time_str n.1 b

/-- Every row stores at least `ceil(bit-length / 8)` bytes. -/
abbrev rows_stored (bitbuffer : bitbuffer_t) : Prop :=
  ∀ row ∈ bitbuffer, (row.bits_per_row + 7) / 8 ≤ row.bb.length

/-! ## Auxiliary lemmas -/

theorem reverse_byte_lt (b : Nat) : reverse_byte b < 256 := by
  unfold reverse_byte
  exact Nat.mod_lt _ (by norm_num)

set_option maxRecDepth 100000 in
theorem reverse_byte_involutive_aux : ∀ b, b < 256 → reverse_byte (reverse_byte b) = b := by
  decide

set_option maxRecDepth 100000 in
theorem reverse_byte_testBit_aux :
    ∀ b, b < 256 → ∀ i, i < 8 → (reverse_byte b).testBit i = b.testBit (7 - i) := by
  decide

set_option maxRecDepth 100000 in
theorem fmt_02x_byte : ∀ v, v < 256 → fmt_02x v = [hex_digit (v / 16), hex_digit (v % 16)] := by
  decide

theorem hex_digit_value_hex_digit : ∀ n, n < 16 → hex_digit_value (hex_digit n) = n := by
  decide

theorem is_lower_hex_hex_digit : ∀ n, n < 16 → is_lower_hex (hex_digit n) = true := by
  decide

theorem normalize_rows_length : ∀ (rows : List bitrow) (learn : Nat),
    (normalize_rows learn rows).2.length = rows.length := by
  intro rows
  induction rows with
  | nil => intro learn; rfl
  | cons row rest ih => intro learn; simp [normalize_rows, ih]

/-- Outcome of the scan: either no scanned row wins and the result is `-1`, or the result is
the index of the first scanned row that wins. -/
theorem find_repeated_from_spec (bb : bitbuffer_t) (mr mb : Nat) : ∀ (rows : List bitrow) (i : Nat),
    (find_repeated_from bb mr mb rows i = -1 ∧
      ∀ row ∈ rows, ¬ (row.bits_per_row = mb ∧ mr ≤ count_repeats bb mb row)) ∨
    (∃ (k : Nat) (row : bitrow), rows[k]? = some row ∧ find_repeated_from bb mr mb rows i = ((i + k : Nat) : Int) ∧
      (row.bits_per_row = mb ∧ mr ≤ count_repeats bb mb row) ∧
      ∀ j row', j < k → rows[j]? = some row' →
        ¬ (row'.bits_per_row = mb ∧ mr ≤ count_repeats bb mb row')) := by
  intro rows
  induction rows with
  | nil => intro i; left; simp [find_repeated_from]
  | cons row rest ih =>
    intro i
    by_cases hw : row.bits_per_row = mb ∧ mr ≤ count_repeats bb mb row
    · right
      refine ⟨0, row, by simp, ?_, hw, ?_⟩
      · simp [find_repeated_from, hw]
      · intro j row' hj; omega
    · rcases ih (i + 1) with ⟨h1, h2⟩ | ⟨k, row', hk, h1, h2, h3⟩
      · left
        refine ⟨?_, ?_⟩
        · rw [find_repeated_from, if_neg hw]; exact h1
        · intro r hr
          rcases List.mem_cons.1 hr with rfl | hr
          · exact hw
          · exact h2 r hr
      · right
        refine ⟨k + 1, row', by simpa using hk, ?_, h2, ?_⟩
        · rw [find_repeated_from, if_neg hw, h1]
          congr 1; omega
        · intro j r hj hr
          cases j with
          | zero => simp at hr; subst hr; exact hw
          | succ j => exact h3 j r (by omega) (by simpa using hr)

theorem count_repeats_le (bb : bitbuffer_t) (bits : Nat) (row : bitrow) :
    count_repeats bb bits row ≤ bb.length :=
  List.countP_le_length _

/-- A non-negative result of the finder is the index of a row of the buffer, and the buffer
then has at least `min_repeats` rows. -/
theorem find_repeated_row_nonneg (bb : bitbuffer_t) (mr mb : Nat)
    (h : 0 ≤ bitbuffer_find_repeated_row bb mr mb) :
    ∃ (k : Nat) (row : bitrow), bb[k]? = some row ∧ bitbuffer_find_repeated_row bb mr mb = (k : Int) ∧
      row.bits_per_row = mb ∧ mr ≤ count_repeats bb mb row ∧ mr ≤ bb.length := by
  rcases find_repeated_from_spec bb mr mb bb 0 with ⟨h1, _⟩ | ⟨k, row, hk, h1, h2, _⟩
  · unfold bitbuffer_find_repeated_row at h
    rw [h1] at h
    omega
  · refine ⟨k, row, hk, ?_, h2.1, h2.2, le_trans h2.2 (count_repeats_le bb mb row)⟩
    unfold bitbuffer_find_repeated_row
    rw [h1]; simp

theorem reverse_byte_mod (b : Nat) : reverse_byte (b % 256) = reverse_byte b := by
  unfold reverse_byte
  simp only [Nat.mod_mod]

theorem testBit_mod_256 (b i : Nat) (hi : i < 8) : (b % 256).testBit i = b.testBit i := by
  have : (256 : Nat) = 2 ^ 8 := by norm_num
  rw [this, Nat.testBit_mod_two_pow]
  simp [hi]

theorem decode_row_some (time_str : String) (learn : Nat) (b : bitrow) (ret : Int) (d : data_t)
    (h : decode_row time_str learn b = (ret, some d)) :
    ret = 1 ∧
    d.time = time_str ∧ d.model = "Smoke detector GS 558" ∧
    d.id = id_of (reverse_byte (byte_at b 0)) (reverse_byte (byte_at b 1))
      (reverse_byte (byte_at b 2)) ∧
    d.unit = unit_of (reverse_byte (byte_at b 0)) ∧
    d.learn = (if learn > 1 then 1 else 0) ∧
    d.code = code_of (reverse_byte (byte_at b 0)) (reverse_byte (byte_at b 1))
      (reverse_byte (byte_at b 2)) ∧
    d.id ≠ 0 ∧ d.id ≠ 0x7fff := by
  unfold decode_row at h
  simp only [] at h
  split at h
  · simp at h
  · rename_i hid
    simp only [Prod.mk.injEq, Option.some.injEq] at h
    obtain ⟨h1, h2⟩ := h
    subst h2
    refine ⟨h1.symm, rfl, rfl, rfl, rfl, rfl, rfl, ?_, ?_⟩
    · intro h0; exact hid (Or.inl h0)
    · intro h0; exact hid (Or.inr h0)

/-- When the callback hands out a record, the burst has at least 3 rows, the finder result is
non-negative and the record is the decoding of the row the finder points at. -/
theorem callback_some (invert : bitbuffer_t → bitbuffer_t) (time_str : String)
    (bitbuffer : bitbuffer_t) (ret : Int) (d : data_t)
    (h : smoke_gs558_callback invert time_str bitbuffer = (ret, some d)) :
    3 ≤ num_rows bitbuffer ∧
    0 ≤ bitbuffer_find_repeated_row (normalize_rows 0 (invert bitbuffer)).2 3 24 ∧
    decode_row time_str (normalize_rows 0 (invert bitbuffer)).1
      ((normalize_rows 0 (invert bitbuffer)).2.getD
        (bitbuffer_find_repeated_row (normalize_rows 0 (invert bitbuffer)).2 3 24).toNat ⟨0, []⟩)
      = (ret, some d) := by
  unfold smoke_gs558_callback at h
  simp only [] at h
  split at h
  · simp at h
  · rename_i hn
    split at h
    · simp at h
    · rename_i hr
      exact ⟨by omega, by omega, h⟩

theorem id_of_lt (r0 r1 r2 : Nat) (h0 : r0 < 256) (h1 : r1 < 256) : id_of r0 r1 r2 < 2 ^ 15 := by
  unfold id_of
  have ha : r2 &&& 0x0f ≤ 0x0f := Nat.and_le_right
  apply Nat.or_lt_two_pow
  · apply Nat.or_lt_two_pow
    · rw [Nat.shiftLeft_eq]; omega
    · rw [Nat.shiftLeft_eq]; omega
  · rw [Nat.shiftRight_eq_div_pow]; omega

theorem unit_of_le (r0 : Nat) : unit_of r0 ≤ 31 := by
  unfold unit_of
  exact Nat.and_le_right

theorem code_of_bytes (r0 r1 r2 : Nat) (h0 : r0 < 256) (h1 : r1 < 256) (h2 : r2 < 256) :
    code_of r0 r1 r2 = String.mk [hex_digit (r2 / 16), hex_digit (r2 % 16),
      hex_digit (r1 / 16), hex_digit (r1 % 16), hex_digit (r0 / 16), hex_digit (r0 % 16)] := by
  unfold code_of
  rw [fmt_02x_byte r0 h0, fmt_02x_byte r1 h1, fmt_02x_byte r2 h2]
  rfl

theorem hex_value_six (a b c d e f : Nat) (ha : a < 16) (hb : b < 16) (hc : c < 16)
    (hd : d < 16) (he : e < 16) (hf : f < 16) :
    hex_value [hex_digit a, hex_digit b, hex_digit c, hex_digit d, hex_digit e, hex_digit f]
      = ((((a * 16 + b) * 16 + c) * 16 + d) * 16 + e) * 16 + f := by
  simp only [hex_value, List.foldl_cons, List.foldl_nil]
  rw [hex_digit_value_hex_digit a ha, hex_digit_value_hex_digit b hb,
    hex_digit_value_hex_digit c hc, hex_digit_value_hex_digit d hd,
    hex_digit_value_hex_digit e he, hex_digit_value_hex_digit f hf]
  ring

theorem bit_of_mod_256 (b i : Nat) (hi : i < 8) : bit_of (b % 256) i = bit_of b i := by
  unfold bit_of
  rw [testBit_mod_256 b i hi]

set_option maxRecDepth 100000 in
theorem unit_bits_aux : ∀ b, b < 256 → unit_of (reverse_byte b) =
    bit_of b 7 + 2 * bit_of b 6 + 4 * bit_of b 5 + 8 * bit_of b 4 + 16 * bit_of b 3 := by
  decide

set_option maxRecDepth 100000 in
theorem low_bits_aux : ∀ b, b < 256 → reverse_byte b >>> 5 =
    bit_of b 2 + 2 * bit_of b 1 + 4 * bit_of b 0 := by
  decide

set_option maxRecDepth 100000 in
theorem mid_bits_aux : ∀ b, b < 256 → reverse_byte b =
    bit_of b 7 + 2 * bit_of b 6 + 4 * bit_of b 5 + 8 * bit_of b 4 + 16 * bit_of b 3
      + 32 * bit_of b 2 + 64 * bit_of b 1 + 128 * bit_of b 0 := by
  decide

set_option maxRecDepth 100000 in
theorem high_bits_aux : ∀ b, b < 256 → reverse_byte b &&& 0x0f =
    bit_of b 7 + 2 * bit_of b 6 + 4 * bit_of b 5 + 8 * bit_of b 4 := by
  decide

theorem unit_bits (b : Nat) : unit_of (reverse_byte b) =
    bit_of b 7 + 2 * bit_of b 6 + 4 * bit_of b 5 + 8 * bit_of b 4 + 16 * bit_of b 3 := by
  have h := unit_bits_aux (b % 256) (Nat.mod_lt _ (by norm_num))
  rw [reverse_byte_mod] at h
  simpa only [bit_of_mod_256 b _ (by norm_num : (7 : Nat) < 8), bit_of_mod_256 b _ (by norm_num : (6 : Nat) < 8),
    bit_of_mod_256 b _ (by norm_num : (5 : Nat) < 8), bit_of_mod_256 b _ (by norm_num : (4 : Nat) < 8),
    bit_of_mod_256 b _ (by norm_num : (3 : Nat) < 8)] using h

theorem low_bits (b : Nat) : reverse_byte b >>> 5 =
    bit_of b 2 + 2 * bit_of b 1 + 4 * bit_of b 0 := by
  have h := low_bits_aux (b % 256) (Nat.mod_lt _ (by norm_num))
  rw [reverse_byte_mod] at h
  simpa only [bit_of_mod_256 b _ (by norm_num : (2 : Nat) < 8), bit_of_mod_256 b _ (by norm_num : (1 : Nat) < 8),
    bit_of_mod_256 b _ (by norm_num : (0 : Nat) < 8)] using h

theorem mid_bits (b : Nat) : reverse_byte b =
    bit_of b 7 + 2 * bit_of b 6 + 4 * bit_of b 5 + 8 * bit_of b 4 + 16 * bit_of b 3
      + 32 * bit_of b 2 + 64 * bit_of b 1 + 128 * bit_of b 0 := by
  have h := mid_bits_aux (b % 256) (Nat.mod_lt _ (by norm_num))
  rw [reverse_byte_mod] at h
  simpa only [bit_of_mod_256 b _ (by norm_num : (7 : Nat) < 8), bit_of_mod_256 b _ (by norm_num : (6 : Nat) < 8),
    bit_of_mod_256 b _ (by norm_num : (5 : Nat) < 8), bit_of_mod_256 b _ (by norm_num : (4 : Nat) < 8),
    bit_of_mod_256 b _ (by norm_num : (3 : Nat) < 8), bit_of_mod_256 b _ (by norm_num : (2 : Nat) < 8),
    bit_of_mod_256 b _ (by norm_num : (1 : Nat) < 8), bit_of_mod_256 b _ (by norm_num : (0 : Nat) < 8)] using h

theorem high_bits (b : Nat) : reverse_byte b &&& 0x0f =
    bit_of b 7 + 2 * bit_of b 6 + 4 * bit_of b 5 + 8 * bit_of b 4 := by
  have h := high_bits_aux (b % 256) (Nat.mod_lt _ (by norm_num))
  rw [reverse_byte_mod] at h
  simpa only [bit_of_mod_256 b _ (by norm_num : (7 : Nat) < 8), bit_of_mod_256 b _ (by norm_num : (6 : Nat) < 8),
    bit_of_mod_256 b _ (by norm_num : (5 : Nat) < 8), bit_of_mod_256 b _ (by norm_num : (4 : Nat) < 8)] using h

/-- For bytes, the three operands of the `|` at line 96 occupy disjoint bit ranges, so the
`|` is a sum. -/
theorem id_of_eq_add (r0 r1 r2 : Nat) (h0 : r0 < 256) (h1 : r1 < 256) :
    id_of r0 r1 r2 = (r2 &&& 0x0f) * 2048 + r1 * 8 + (r0 >>> 5) := by
  unfold id_of
  have hlo : r0 >>> 5 < 2 ^ 3 := by rw [Nat.shiftRight_eq_div_pow]; omega
  have e1 : r1 <<< 3 ||| r0 >>> 5 = r1 * 8 + (r0 >>> 5) := by
    rw [Nat.shiftLeft_eq, Nat.mul_comm, ← Nat.mul_add_lt_is_or hlo]
  have hmid : r1 * 8 + (r0 >>> 5) < 2 ^ 11 := by
    rw [Nat.shiftRight_eq_div_pow] at hlo ⊢; omega
  rw [Nat.or_assoc, e1, Nat.shiftLeft_eq, Nat.mul_comm, ← Nat.mul_add_lt_is_or hmid]
  ring

theorem frame_fields (b0 b1 b2 : Nat) :
    unit_of (reverse_byte b0) = ∑ i in Finset.range 5, frame_bit b0 b1 b2 i * 2 ^ i ∧
    id_of (reverse_byte b0) (reverse_byte b1) (reverse_byte b2)
      = ∑ j in Finset.range 15, frame_bit b0 b1 b2 (5 + j) * 2 ^ j := by
  constructor
  · rw [unit_bits]
    simp [Finset.sum_range_succ, frame_bit]
    ring
  · rw [id_of_eq_add _ _ _ (reverse_byte_lt b0) (reverse_byte_lt b1), low_bits, high_bits,
      mid_bits b1]
    simp [Finset.sum_range_succ, frame_bit]
    ring

theorem and_7 (x : Nat) : x &&& 7 = x % 8 := Nat.and_pow_two_sub_one_eq_mod x 3

theorem and_15 (x : Nat) : x &&& 15 = x % 16 := Nat.and_pow_two_sub_one_eq_mod x 4

theorem and_31 (x : Nat) : x &&& 31 = x % 32 := Nat.and_pow_two_sub_one_eq_mod x 5

theorem and_255 (x : Nat) : x &&& 255 = x % 256 := Nat.and_pow_two_sub_one_eq_mod x 8

theorem enc_r0_eq (unit id : Nat) (hu : unit < 32) : enc_r0 unit id = (id % 8) * 32 + unit := by
  unfold enc_r0
  have hu' : unit < 2 ^ 5 := by omega
  rw [and_7, Nat.shiftLeft_eq, Nat.mul_comm, ← Nat.mul_add_lt_is_or hu']

theorem enc_r1_eq (id : Nat) : enc_r1 id = (id / 8) % 256 := by
  unfold enc_r1
  rw [and_255, Nat.shiftRight_eq_div_pow]

theorem enc_r2_eq (id h : Nat) (hid : id < 32768) : enc_r2 id h = h * 16 + id / 2048 := by
  unfold enc_r2
  have hlt : id >>> 11 < 2 ^ 4 := by rw [Nat.shiftRight_eq_div_pow]; omega
  rw [Nat.shiftLeft_eq, Nat.mul_comm, ← Nat.mul_add_lt_is_or hlt, Nat.shiftRight_eq_div_pow]

/-- Decoding the reversed bytes built from `unit`, `id`, `h` gives `unit` and `id` back. -/
theorem decode_enc (unit id h : Nat) (hu : unit < 32) (hid : id < 32768) (hh : h < 16) :
    enc_r0 unit id < 256 ∧ enc_r1 id < 256 ∧ enc_r2 id h < 256 ∧
    unit_of (enc_r0 unit id) = unit ∧
    id_of (enc_r0 unit id) (enc_r1 id) (enc_r2 id h) = id := by
  have e0 := enc_r0_eq unit id hu
  have e1 := enc_r1_eq id
  have e2 := enc_r2_eq id h hid
  have h0 : enc_r0 unit id < 256 := by omega
  have h1 : enc_r1 id < 256 := by omega
  have h2 : enc_r2 id h < 256 := by omega
  refine ⟨h0, h1, h2, ?_, ?_⟩
  · unfold unit_of
    rw [and_31]; omega
  · rw [id_of_eq_add _ _ _ h0 h1, and_15, Nat.shiftRight_eq_div_pow]
    omega

/-- Rows of bit-length 24 that do not carry the learn pattern pass the normalizer loop
unchanged and leave the counter as it is. -/
theorem normalize_rows_plain : ∀ (rows : List bitrow) (learn : Nat),
    (∀ row ∈ rows, row.bits_per_row = 24 ∧ is_learn_row row = false) →
    normalize_rows learn rows = (learn, rows) := by
  intro rows
  induction rows with
  | nil => intro learn _; rfl
  | cons row rest ih =>
    intro learn h
    obtain ⟨hb, hl⟩ := h row (List.mem_cons_self _ _)
    have hrow : normalize_row learn row = (learn, row) := by
      unfold normalize_row
      cases row with
      | mk bits bytes =>
        simp only [] at hb
        subst hb
        simp [hl]
    rw [normalize_rows, hrow]
    simp only []
    rw [ih learn (fun r hr => h r (List.mem_cons_of_mem _ hr))]

theorem compare_rows_self (bits : Nat) (row : bitrow) (h : row.bits_per_row = bits) :
    compare_rows bits row row = true := by
  unfold compare_rows
  simp [h]

/-- A burst that starts with a row of bit-length 24 which is repeated at least three times is
won by its first row. -/
theorem find_repeated_row_head (row : bitrow) (rest : List bitrow)
    (hb : row.bits_per_row = 24) (hc : 3 ≤ count_repeats (row :: rest) 24 row) :
    bitbuffer_find_repeated_row (row :: rest) 3 24 = 0 := by
  unfold bitbuffer_find_repeated_row
  rw [find_repeated_from, if_pos ⟨hb, hc⟩]
  rfl

theorem count_repeats_replicate (n : Nat) (row : bitrow) (h : row.bits_per_row = 24) :
    count_repeats (List.replicate n row) 24 row = n := by
  unfold count_repeats
  rw [List.countP_replicate, if_pos (compare_rows_self 24 row h)]

theorem is_learn_row_iff (row : bitrow) : is_learn_row row = true ↔ is_pairing_row row := by
  unfold is_learn_row is_pairing_row
  simp [and_assoc]

theorem normalize_row_learn (learn : Nat) (row : bitrow) :
    (normalize_row learn row).1 = learn + (if is_learn_row row then 1 else 0) := by
  unfold normalize_row
  by_cases h : is_learn_row row = true <;> simp [h]

/-- The counter after the loop is the counter before it plus the number of rows carrying the
learn pattern. -/
theorem normalize_rows_learn : ∀ (rows : List bitrow) (learn : Nat),
    (normalize_rows learn rows).1 = learn + rows.countP is_learn_row := by
  intro rows
  induction rows with
  | nil => intro learn; simp [normalize_rows]
  | cons row rest ih =>
    intro learn
    rw [normalize_rows]
    simp only []
    rw [ih, normalize_row_learn, List.countP_cons]
    omega

theorem countP_learn_eq (rows : List bitrow) :
    rows.countP is_learn_row = rows.countP (fun row => decide (is_pairing_row row)) := by
  congr 1
  funext row
  by_cases h : is_pairing_row row
  · simp [h, (is_learn_row_iff row).2 h]
  · have : ¬ is_learn_row row = true := fun hl => h ((is_learn_row_iff row).1 hl)
    simp [h, this]

theorem compare_rows_24 (a b : bitrow) :
    compare_rows 24 a b =
      (decide (a.bits_per_row = 24) && decide (b.bits_per_row = 24)
        && (decide (byte_at a 0 = byte_at b 0) && (decide (byte_at a 1 = byte_at b 1)
        && decide (byte_at a 2 = byte_at b 2)))) := by
  unfold compare_rows
  have : (24 + 7) / 8 = 3 := by norm_num
  rw [this]
  simp [List.range_succ]

theorem row_key_eq {a b : bitrow} (h : row_key a = row_key b) :
    a.bits_per_row = b.bits_per_row ∧ byte_at a 0 = byte_at b 0 ∧ byte_at a 1 = byte_at b 1 ∧
      byte_at a 2 = byte_at b 2 := by
  unfold row_key at h
  simp only [Prod.mk.injEq] at h
  exact h

theorem compare_rows_key {a a' b b' : bitrow} (ha : row_key a = row_key a')
    (hb : row_key b = row_key b') : compare_rows 24 a b = compare_rows 24 a' b' := by
  obtain ⟨a0, a1, a2, a3⟩ := row_key_eq ha
  obtain ⟨b0, b1, b2, b3⟩ := row_key_eq hb
  rw [compare_rows_24, compare_rows_24, a0, a1, a2, a3, b0, b1, b2, b3]

theorem count_repeats_key {a a' : bitrow} (ha : row_key a = row_key a') :
    ∀ (B B' : List bitrow), B.map row_key = B'.map row_key →
      count_repeats B 24 a = count_repeats B' 24 a' := by
  intro B
  induction B with
  | nil =>
    intro B' h
    cases B' with
    | nil => rfl
    | cons x xs => simp at h
  | cons x xs ih =>
    intro B' h
    cases B' with
    | nil => simp at h
    | cons y ys =>
      simp only [List.map_cons, List.cons.injEq] at h
      have := ih ys h.2
      unfold count_repeats at this ⊢
      rw [List.countP_cons, List.countP_cons, this, compare_rows_key ha h.1]

theorem find_repeated_from_key (B B' : List bitrow) (hB : B.map row_key = B'.map row_key) :
    ∀ (rows rows' : List bitrow) (i : Nat), rows.map row_key = rows'.map row_key →
      find_repeated_from B 3 24 rows i = find_repeated_from B' 3 24 rows' i := by
  intro rows
  induction rows with
  | nil =>
    intro rows' i h
    cases rows' with
    | nil => rfl
    | cons x xs => simp at h
  | cons x xs ih =>
    intro rows' i h
    cases rows' with
    | nil => simp at h
    | cons y ys =>
      simp only [List.map_cons, List.cons.injEq] at h
      rw [find_repeated_from, find_repeated_from, count_repeats_key h.1 B B' hB,
        (row_key_eq h.1).1, ih ys (i + 1) h.2]

theorem find_repeated_row_key (B B' : List bitrow) (hB : B.map row_key = B'.map row_key) :
    bitbuffer_find_repeated_row B 3 24 = bitbuffer_find_repeated_row B' 3 24 :=
  find_repeated_from_key B B' hB B B' 0 hB

theorem getD_key : ∀ (B B' : List bitrow), B.map row_key = B'.map row_key →
    ∀ (n : Nat) (dflt : bitrow), row_key (B.getD n dflt) = row_key (B'.getD n dflt) := by
  intro B
  induction B with
  | nil =>
    intro B' h n dflt
    cases B' with
    | nil => rfl
    | cons x xs => simp at h
  | cons x xs ih =>
    intro B' h n dflt
    cases B' with
    | nil => simp at h
    | cons y ys =>
      simp only [List.map_cons, List.cons.injEq] at h
      cases n with
      | zero => simpa using h.1
      | succ n => simpa using ih ys h.2 n dflt

theorem decode_row_key (time_str : String) (learn : Nat) {b b' : bitrow}
    (h : row_key b = row_key b') : decode_row time_str learn b = decode_row time_str learn b' := by
  obtain ⟨_, h0, h1, h2⟩ := row_key_eq h
  unfold decode_row
  rw [h0, h1, h2]

/-- Lines 65–115 on the rows after inversion depend on the rows only through the counter and
the keys of the normalized rows. -/
theorem decode_congr (time_str : String) (n n' : Nat × List bitrow) (h1 : n.1 = n'.1)
    (h2 : n.2.map row_key = n'.2.map row_key) :
    (if bitbuffer_find_repeated_row n.2 3 24 < 0 then ((0 : Int), (none : Option data_t))
      else decode_row time_str n.1
        (n.2.getD (bitbuffer_find_repeated_row n.2 3 24).toNat ⟨0, []⟩)) =
    (if bitbuffer_find_repeated_row n'.2 3 24 < 0 then ((0 : Int), (none : Option data_t))
      else decode_row time_str n'.1
        (n'.2.getD (bitbuffer_find_repeated_row n'.2 3 24).toNat ⟨0, []⟩)) := by
  rw [find_repeated_row_key n.2 n'.2 h2, h1,
    decode_row_key time_str n'.1 (getD_key n.2 n'.2 h2 _ _)]

theorem normalize_row_key (learn : Nat) (row : bitrow) :
    row_key (normalize_row learn row).2 =
      ((normalize_row learn row).2.bits_per_row, byte_at row 0, byte_at row 1, byte_at row 2) := by
  rfl

/-- A row of 26 or 27 bits whose 4th byte is 0 and a 24-bit row with the same first three
bytes leave the loop body with the same counter, bit-length and first three bytes. -/
theorem normalize_row_truncated (learn : Nat) (row row' : bitrow)
    (hbits : row.bits_per_row = 26 ∨ row.bits_per_row = 27) (h3 : byte_at row 3 = 0)
    (hbits' : row'.bits_per_row = 24) (h0 : byte_at row' 0 = byte_at row 0)
    (h1 : byte_at row' 1 = byte_at row 1) (h2 : byte_at row' 2 = byte_at row 2) :
    (normalize_row learn row).1 = (normalize_row learn row').1 ∧
    row_key (normalize_row learn row).2 = row_key (normalize_row learn row').2 := by
  rw [normalize_row_key, normalize_row_key, h0, h1, h2]
  unfold normalize_row is_learn_row
  rw [h0, h1, h2, hbits']
  by_cases hp : byte_at row 0 = 0x55 ∧ byte_at row 1 = 0x55 ∧ byte_at row 2 = 0x55
  · obtain ⟨p0, p1, p2⟩ := hp
    rcases hbits with hb | hb <;> simp [hb, p0, p1, p2]
  · have hp' : (decide (byte_at row 0 = 0x55) && decide (byte_at row 1 = 0x55)
        && decide (byte_at row 2 = 0x55)) = false := by
      by_contra hc
      simp at hc
      exact hp hc
    rcases hbits with hb | hb <;> simp [hb, h3, Bool.and_assoc, hp']

theorem normalize_rows_append : ∀ (pre rest : List bitrow) (learn : Nat),
    normalize_rows learn (pre ++ rest) =
      ((normalize_rows (normalize_rows learn pre).1 rest).1,
        (normalize_rows learn pre).2 ++ (normalize_rows (normalize_rows learn pre).1 rest).2) := by
  intro pre
  induction pre with
  | nil => intro rest learn; simp [normalize_rows]
  | cons row pre ih =>
    intro rest learn
    rw [List.cons_append, normalize_rows, normalize_rows, ih]
    simp only [List.cons_append]

theorem normalize_rows_replace (pre post : List bitrow) (row row' : bitrow) (learn : Nat)
    (h : ∀ l, (normalize_row l row).1 = (normalize_row l row').1 ∧
      row_key (normalize_row l row).2 = row_key (normalize_row l row').2) :
    (normalize_rows learn (pre ++ row :: post)).1 = (normalize_rows learn (pre ++ row' :: post)).1 ∧
    (normalize_rows learn (pre ++ row :: post)).2.map row_key
      = (normalize_rows learn (pre ++ row' :: post)).2.map row_key := by
  rw [normalize_rows_append, normalize_rows_append]
  simp only [normalize_rows, List.map_append, List.map_cons]
  obtain ⟨e1, e2⟩ := h (normalize_rows learn pre).1
  rw [e1, e2]
  exact ⟨rfl, rfl⟩

/-- Rows that all carry the same first three bytes, not the learn pattern, and are either
24-bit rows or 26/27-bit rows with a zero 4th byte, leave the loop as 24-bit rows with those
bytes; the counter is unchanged. -/
theorem normalize_rows_uniform (b0 b1 b2 : Nat)
    (hp : ¬ (b0 = 0x55 ∧ b1 = 0x55 ∧ b2 = 0x55)) : ∀ (rows : List bitrow) (learn : Nat),
    (∀ x ∈ rows, (x.bits_per_row = 24 ∨
        ((x.bits_per_row = 26 ∨ x.bits_per_row = 27) ∧ byte_at x 3 = 0)) ∧
      byte_at x 0 = b0 ∧ byte_at x 1 = b1 ∧ byte_at x 2 = b2) →
    (normalize_rows learn rows).1 = learn ∧
    (normalize_rows learn rows).2.map row_key = List.replicate rows.length (24, b0, b1, b2) := by
  intro rows
  induction rows with
  | nil => intro learn _; exact ⟨rfl, rfl⟩
  | cons x xs ih =>
    intro learn h
    obtain ⟨hb, h0, h1, h2⟩ := h x (List.mem_cons_self _ _)
    have hl : is_learn_row x = false := by
      by_contra hc
      have hc' : is_learn_row x = true := by simpa using hc
      obtain ⟨_, p0, p1, p2⟩ := (is_learn_row_iff x).1 hc'
      exact hp ⟨by rw [← h0, p0], by rw [← h1, p1], by rw [← h2, p2]⟩
    have hx : (normalize_row learn x).1 = learn ∧
        row_key (normalize_row learn x).2 = (24, b0, b1, b2) := by
      rw [normalize_row_key, h0, h1, h2]
      unfold normalize_row
      rcases hb with hb | ⟨hb | hb, h3⟩
      · simp [hl, hb]
      · simp [hl, hb, h3]
      · simp [hl, hb, h3]
    obtain ⟨e1, e2⟩ := ih (normalize_row learn x).1 (fun y hy => h y (List.mem_cons_of_mem _ hy))
    rw [normalize_rows]
    simp only [List.map_cons, List.length_cons, List.replicate_succ]
    rw [e2, hx.2, e1, hx.1]
    exact ⟨rfl, rfl⟩

/-- The callback as a cascade of its three exits. -/
theorem callback_eq (invert : bitbuffer_t → bitbuffer_t) (time_str : String)
    (bitbuffer : bitbuffer_t) :
    smoke_gs558_callback invert time_str bitbuffer =
      if num_rows bitbuffer < 3 then (0, none)
      else if winning_index invert bitbuffer < 0 then (0, none)
      else decode_row time_str (learn_count invert bitbuffer) (winning_row invert bitbuffer) :=
  rfl

/-- The decoding of a row as its two exits. -/
theorem decode_row_eq (time_str : String) (learn : Nat) (b : bitrow) :
    decode_row time_str learn b =
      if row_id b = 0 ∨ row_id b = 0x7fff then (0, none)
      else (1, some
        { time := time_str
          model := "Smoke detector GS 558"
          id := row_id b
          unit := unit_of (reverse_byte (byte_at b 0))
          learn := if learn > 1 then 1 else 0
          code := code_of (reverse_byte (byte_at b 0)) (reverse_byte (byte_at b 1))
            (reverse_byte (byte_at b 2)) }) :=
  rfl

/-- When the callback hands out a record, it is the decoding of the winning row. -/
theorem callback_reading (invert : bitbuffer_t → bitbuffer_t) (time_str : String)
    (bitbuffer : bitbuffer_t) (ret : Int) (d : data_t)
    (h : smoke_gs558_callback invert time_str bitbuffer = (ret, some d)) :
    ret = 1 ∧
    d.time = time_str ∧ d.model = "Smoke detector GS 558" ∧
    d.id = row_id (winning_row invert bitbuffer) ∧
    d.unit = unit_of (reverse_byte (byte_at (winning_row invert bitbuffer) 0)) ∧
    d.learn = (if learn_count invert bitbuffer > 1 then 1 else 0) ∧
    d.code = code_of (reverse_byte (byte_at (winning_row invert bitbuffer) 0))
      (reverse_byte (byte_at (winning_row invert bitbuffer) 1))
      (reverse_byte (byte_at (winning_row invert bitbuffer) 2)) ∧
    d.id ≠ 0 ∧ d.id ≠ 0x7fff := by
  obtain ⟨_, _, hd⟩ := callback_some invert time_str bitbuffer ret d h
  exact decode_row_some _ _ _ _ _ hd

theorem hex_digit_utf8Size : ∀ n, n < 16 → (hex_digit n).utf8Size = 1 := by
  decide

/-! ## The claims -/

/-- C1: with the rows taken as they are after the polarity inversion, the callback returns 1
and hands out a Reading if and only if the finder finds a winning row among the normalized
rows and the id decoded from it is neither 0 nor 0x7FFF; in every other case it returns 0 and
hands out nothing. -/
theorem callback_reading_iff (invert : bitbuffer_t → bitbuffer_t) (time_str : String)
    (bitbuffer : bitbuffer_t) (hrows : num_rows (invert bitbuffer) = num_rows bitbuffer) :
    ((smoke_gs558_callback invert time_str bitbuffer).1 = 1 ↔
      (0 ≤ winning_index invert bitbuffer ∧ row_id (winning_row invert bitbuffer) ≠ 0 ∧
        row_id (winning_row invert bitbuffer) ≠ 0x7FFF)) ∧
    ((smoke_gs558_callback invert time_str bitbuffer).2.isSome ↔
      (0 ≤ winning_index invert bitbuffer ∧ row_id (winning_row invert bitbuffer) ≠ 0 ∧
        row_id (winning_row invert bitbuffer) ≠ 0x7FFF)) ∧
    (¬ (0 ≤ winning_index invert bitbuffer ∧ row_id (winning_row invert bitbuffer) ≠ 0 ∧
        row_id (winning_row invert bitbuffer) ≠ 0x7FFF) →
      smoke_gs558_callback invert time_str bitbuffer = (0, none)) := by
  rw [callback_eq, decode_row_eq]
  by_cases hn : num_rows bitbuffer < 3
  · have hr : ¬ 0 ≤ winning_index invert bitbuffer := by
      intro h0
      obtain ⟨k, row, _, _, _, _, hlen⟩ :=
        find_repeated_row_nonneg (normalized invert bitbuffer) 3 24 h0
      have : (normalized invert bitbuffer).length = (invert bitbuffer).length :=
        normalize_rows_length _ _
      unfold num_rows at hn hrows
      omega
    simp [hn, hr]
  · by_cases hr : winning_index invert bitbuffer < 0
    · have hr' : ¬ 0 ≤ winning_index invert bitbuffer := by omega
      simp [hn, hr, hr']
    · have hr' : 0 ≤ winning_index invert bitbuffer := by omega
      by_cases hid : row_id (winning_row invert bitbuffer) = 0 ∨
          row_id (winning_row invert bitbuffer) = 0x7fff
      · have hc : ¬ (row_id (winning_row invert bitbuffer) ≠ 0 ∧
            row_id (winning_row invert bitbuffer) ≠ 0x7FFF) := by
          rcases hid with h | h <;> simp [h]
        rw [if_neg hn, if_neg hr, if_pos hid]
        simp [hr', hc]
      · have hc : row_id (winning_row invert bitbuffer) ≠ 0 ∧
            row_id (winning_row invert bitbuffer) ≠ 0x7FFF := by
          constructor
          · intro h; exact hid (Or.inl h)
          · intro h; exact hid (Or.inr h)
        rw [if_neg hn, if_neg hr, if_neg hid]
        simp [hr', hc]

theorem callback_reading_iff_witness :
    num_rows (bitbuffer_invert [⟨24, [0x5E, 0x4D, 0x3C]⟩, ⟨24, [0x5E, 0x4D, 0x3C]⟩,
        ⟨24, [0x5E, 0x4D, 0x3C]⟩])
      = num_rows [⟨24, [0x5E, 0x4D, 0x3C]⟩, ⟨24, [0x5E, 0x4D, 0x3C]⟩,
        (⟨24, [0x5E, 0x4D, 0x3C]⟩ : bitrow)] ∧
    winning_row bitbuffer_invert [⟨24, [0x5E, 0x4D, 0x3C]⟩, ⟨24, [0x5E, 0x4D, 0x3C]⟩,
        ⟨24, [0x5E, 0x4D, 0x3C]⟩] = ⟨24, [0xA1, 0xB2, 0xC3]⟩ ∧
    ((smoke_gs558_callback bitbuffer_invert sample_time [⟨24, [0x5E, 0x4D, 0x3C]⟩,
        ⟨24, [0x5E, 0x4D, 0x3C]⟩, ⟨24, [0x5E, 0x4D, 0x3C]⟩]).1 = 1 ↔
      (0 ≤ winning_index bitbuffer_invert [⟨24, [0x5E, 0x4D, 0x3C]⟩, ⟨24, [0x5E, 0x4D, 0x3C]⟩,
          ⟨24, [0x5E, 0x4D, 0x3C]⟩] ∧
        row_id (winning_row bitbuffer_invert [⟨24, [0x5E, 0x4D, 0x3C]⟩,
          ⟨24, [0x5E, 0x4D, 0x3C]⟩, ⟨24, [0x5E, 0x4D, 0x3C]⟩]) ≠ 0 ∧
        row_id (winning_row bitbuffer_invert [⟨24, [0x5E, 0x4D, 0x3C]⟩,
          ⟨24, [0x5E, 0x4D, 0x3C]⟩, ⟨24, [0x5E, 0x4D, 0x3C]⟩]) ≠ 0x7FFF)) :=
  ⟨by decide, by decide,
    (callback_reading_iff bitbuffer_invert sample_time
      [⟨24, [0x5E, 0x4D, 0x3C]⟩, ⟨24, [0x5E, 0x4D, 0x3C]⟩, ⟨24, [0x5E, 0x4D, 0x3C]⟩]
      (by decide)).1⟩

/-- C2: every Reading handed out has `1 ≤ id ≤ 32766`, `0 ≤ unit ≤ 31` and `learn` 0 or 1;
the id expression of line 96 stays below `2^15` for any three bytes. -/
theorem reading_field_ranges :
    (∀ r0 r1 r2 : Nat, r0 < 256 → r1 < 256 → r2 < 256 → id_of r0 r1 r2 < 2 ^ 15) ∧
    (∀ (invert : bitbuffer_t → bitbuffer_t) (time_str : String) (bitbuffer : bitbuffer_t)
      (ret : Int) (d : data_t),
      smoke_gs558_callback invert time_str bitbuffer = (ret, some d) →
      1 ≤ d.id ∧ d.id ≤ 32766 ∧ 0 ≤ d.unit ∧ d.unit ≤ 31 ∧ (d.learn = 0 ∨ d.learn = 1)) := by
  refine ⟨fun r0 r1 r2 h0 h1 _ => id_of_lt r0 r1 r2 h0 h1, ?_⟩
  intro invert time_str bitbuffer ret d h
  obtain ⟨_, _, _, hid, hunit, hlearn, _, hne0, hne1⟩ :=
    callback_reading invert time_str bitbuffer ret d h
  have hlt : row_id (winning_row invert bitbuffer) < 2 ^ 15 :=
    id_of_lt _ _ _ (reverse_byte_lt _) (reverse_byte_lt _)
  rw [← hid] at hlt
  have hu := unit_of_le (reverse_byte (byte_at (winning_row invert bitbuffer) 0))
  rw [← hunit] at hu
  refine ⟨by omega, by omega, Nat.zero_le _, hu, ?_⟩
  rw [hlearn]
  split <;> simp

theorem reading_field_ranges_witness :
    ((0xA1 : Nat) < 256 ∧ (0xB2 : Nat) < 256 ∧ (0xC3 : Nat) < 256 ∧
      id_of 0xA1 0xB2 0xC3 < 2 ^ 15) ∧
    smoke_gs558_callback bitbuffer_invert sample_time [⟨24, [0x5E, 0x4D, 0x3C]⟩,
        ⟨24, [0x5E, 0x4D, 0x3C]⟩, ⟨24, [0x5E, 0x4D, 0x3C]⟩]
      = (1, some ⟨sample_time, "Smoke detector GS 558", 6764, 5, 0, "c34d85"⟩) ∧
    (1 ≤ (6764 : Nat) ∧ (6764 : Nat) ≤ 32766 ∧ 0 ≤ (5 : Nat) ∧ (5 : Nat) ≤ 31 ∧
      ((0 : Nat) = 0 ∨ (0 : Nat) = 1)) :=
  ⟨⟨by decide, by decide, by decide,
      reading_field_ranges.1 0xA1 0xB2 0xC3 (by decide) (by decide) (by decide)⟩,
    by decide,
    reading_field_ranges.2 bitbuffer_invert sample_time
      [⟨24, [0x5E, 0x4D, 0x3C]⟩, ⟨24, [0x5E, 0x4D, 0x3C]⟩, ⟨24, [0x5E, 0x4D, 0x3C]⟩] 1
      ⟨sample_time, "Smoke detector GS 558", 6764, 5, 0, "c34d85"⟩ (by decide)⟩

/-- C3: the code of a Reading is the two-digit lowercase hexadecimal rendering of the
reversed bytes `r2`, `r1`, `r0` of the winning Frame, in that order: 6 characters, each in
`0-9a-f`, which read back in base 16 give `r2*65536 + r1*256 + r0`; with the terminator it
occupies 7 bytes. -/
theorem reading_code (invert : bitbuffer_t → bitbuffer_t) (time_str : String)
    (bitbuffer : bitbuffer_t) (ret : Int) (d : data_t)
    (h : smoke_gs558_callback invert time_str bitbuffer = (ret, some d)) :
    d.code = String.mk
      (hex_byte (reverse_byte (byte_at (winning_row invert bitbuffer) 2)) ++
       hex_byte (reverse_byte (byte_at (winning_row invert bitbuffer) 1)) ++
       hex_byte (reverse_byte (byte_at (winning_row invert bitbuffer) 0))) ∧
    d.code.length = 6 ∧
    (∀ c ∈ d.code.toList, is_lower_hex c = true) ∧
    hex_value d.code.toList =
      reverse_byte (byte_at (winning_row invert bitbuffer) 2) * 65536 +
      reverse_byte (byte_at (winning_row invert bitbuffer) 1) * 256 +
      reverse_byte (byte_at (winning_row invert bitbuffer) 0) ∧
    d.code.utf8ByteSize + 1 = 7 := by
  obtain ⟨_, _, _, _, _, _, hcode, _, _⟩ := callback_reading invert time_str bitbuffer ret d h
  have h0 : reverse_byte (byte_at (winning_row invert bitbuffer) 0) < 256 := reverse_byte_lt _
  have h1 : reverse_byte (byte_at (winning_row invert bitbuffer) 1) < 256 := reverse_byte_lt _
  have h2 : reverse_byte (byte_at (winning_row invert bitbuffer) 2) < 256 := reverse_byte_lt _
  rw [code_of_bytes _ _ _ h0 h1 h2] at hcode
  refine ⟨hcode, ?_, ?_, ?_, ?_⟩
  · rw [hcode]; rfl
  · rw [hcode]
    intro c hcm
    simp only [String.toList, List.mem_cons, List.mem_singleton, List.not_mem_nil, or_false] at hcm
    rcases hcm with rfl | rfl | rfl | rfl | rfl | rfl <;>
      exact is_lower_hex_hex_digit _ (by omega)
  · rw [hcode]
    show hex_value [_, _, _, _, _, _] = _
    rw [hex_value_six _ _ _ _ _ _ (by omega) (by omega) (by omega) (by omega) (by omega)
      (by omega)]
    omega
  · rw [hcode]
    simp only [String.utf8ByteSize, String.utf8ByteSize.go]
    rw [hex_digit_utf8Size _ (by omega), hex_digit_utf8Size _ (by omega),
      hex_digit_utf8Size _ (by omega), hex_digit_utf8Size _ (by omega),
      hex_digit_utf8Size _ (by omega), hex_digit_utf8Size _ (by omega)]

theorem reading_code_witness :
    smoke_gs558_callback bitbuffer_invert sample_time [⟨24, [0x5E, 0x4D, 0x3C]⟩,
        ⟨24, [0x5E, 0x4D, 0x3C]⟩, ⟨24, [0x5E, 0x4D, 0x3C]⟩]
      = (1, some ⟨sample_time, "Smoke detector GS 558", 6764, 5, 0, "c34d85"⟩) ∧
    hex_value ("c34d85" : String).toList =
      reverse_byte (byte_at (winning_row bitbuffer_invert [⟨24, [0x5E, 0x4D, 0x3C]⟩,
        ⟨24, [0x5E, 0x4D, 0x3C]⟩, ⟨24, [0x5E, 0x4D, 0x3C]⟩]) 2) * 65536 +
      reverse_byte (byte_at (winning_row bitbuffer_invert [⟨24, [0x5E, 0x4D, 0x3C]⟩,
        ⟨24, [0x5E, 0x4D, 0x3C]⟩, ⟨24, [0x5E, 0x4D, 0x3C]⟩]) 1) * 256 +
      reverse_byte (byte_at (winning_row bitbuffer_invert [⟨24, [0x5E, 0x4D, 0x3C]⟩,
        ⟨24, [0x5E, 0x4D, 0x3C]⟩, ⟨24, [0x5E, 0x4D, 0x3C]⟩]) 0) :=
  ⟨by decide,
    (reading_code bitbuffer_invert sample_time
      [⟨24, [0x5E, 0x4D, 0x3C]⟩, ⟨24, [0x5E, 0x4D, 0x3C]⟩, ⟨24, [0x5E, 0x4D, 0x3C]⟩] 1
      ⟨sample_time, "Smoke detector GS 558", 6764, 5, 0, "c34d85"⟩ (by decide)).2.2.2.1⟩

/-- C4: `reverse_byte` is an involution on the 256 byte values. -/
theorem reverse_byte_involution (b : Nat) (hb : b < 256) :
    reverse_byte (reverse_byte b) = b :=
  reverse_byte_involutive_aux b hb

theorem reverse_byte_involution_witness :
    (0xA2 : Nat) < 256 ∧ reverse_byte (reverse_byte 0xA2) = 0xA2 :=
  ⟨by decide, reverse_byte_involution 0xA2 (by decide)⟩

/-- C5: `reverse_byte` is the 8-bit mirror: bit `i` of the result is bit `7 - i` of the
argument, and the result is again a byte. -/
theorem reverse_byte_mirror (b : Nat) (hb : b < 256) (i : Nat) (hi : i < 8) :
    (reverse_byte b).testBit i = b.testBit (7 - i) ∧ reverse_byte b < 256 :=
  ⟨reverse_byte_testBit_aux b hb i hi, reverse_byte_lt b⟩

theorem reverse_byte_mirror_witness :
    (0xA2 : Nat) < 256 ∧ (1 : Nat) < 8 ∧
    ((reverse_byte 0xA2).testBit 1 = (0xA2 : Nat).testBit (7 - 1) ∧ reverse_byte 0xA2 < 256) :=
  ⟨by decide, by decide, reverse_byte_mirror 0xA2 (by decide) 1 (by decide)⟩

/-- C6: bit layout of the 24-bit Frame, bits `t_0 .. t_23` in transmission order: the unit is
the sum of `t_i * 2^i` over the first 5 bits and the id the sum of `t_(5+j) * 2^j` over the
next 15 bits; frames that agree on `t_0 .. t_19` decode to the same unit and id; the fields
of a Reading are these sums for the winning Frame. -/
theorem frame_bit_layout :
    (∀ b0 b1 b2 : Nat,
      unit_of (reverse_byte b0) = ∑ i in Finset.range 5, frame_bit b0 b1 b2 i * 2 ^ i ∧
      id_of (reverse_byte b0) (reverse_byte b1) (reverse_byte b2)
        = ∑ j in Finset.range 15, frame_bit b0 b1 b2 (5 + j) * 2 ^ j) ∧
    (∀ b0 b1 b2 c0 c1 c2 : Nat,
      (∀ k, k < 20 → frame_bit b0 b1 b2 k = frame_bit c0 c1 c2 k) →
      unit_of (reverse_byte b0) = unit_of (reverse_byte c0) ∧
      id_of (reverse_byte b0) (reverse_byte b1) (reverse_byte b2)
        = id_of (reverse_byte c0) (reverse_byte c1) (reverse_byte c2)) ∧
    (∀ (invert : bitbuffer_t → bitbuffer_t) (time_str : String) (bitbuffer : bitbuffer_t)
      (ret : Int) (d : data_t),
      smoke_gs558_callback invert time_str bitbuffer = (ret, some d) →
      d.unit = ∑ i in Finset.range 5,
        frame_bit (byte_at (winning_row invert bitbuffer) 0)
          (byte_at (winning_row invert bitbuffer) 1)
          (byte_at (winning_row invert bitbuffer) 2) i * 2 ^ i ∧
      d.id = ∑ j in Finset.range 15,
        frame_bit (byte_at (winning_row invert bitbuffer) 0)
          (byte_at (winning_row invert bitbuffer) 1)
          (byte_at (winning_row invert bitbuffer) 2) (5 + j) * 2 ^ j) := by
  refine ⟨frame_fields, ?_, ?_⟩
  · intro b0 b1 b2 c0 c1 c2 hk
    rw [(frame_fields b0 b1 b2).1, (frame_fields b0 b1 b2).2, (frame_fields c0 c1 c2).1,
      (frame_fields c0 c1 c2).2]
    constructor
    · apply Finset.sum_congr rfl
      intro i hi
      rw [hk i (by have := Finset.mem_range.1 hi; omega)]
    · apply Finset.sum_congr rfl
      intro j hj
      rw [hk (5 + j) (by have := Finset.mem_range.1 hj; omega)]
  · intro invert time_str bitbuffer ret d h
    obtain ⟨_, _, _, hid, hunit, _, _, _, _⟩ :=
      callback_reading invert time_str bitbuffer ret d h
    rw [hid, hunit]
    exact frame_fields _ _ _

set_option maxRecDepth 100000 in
theorem frame_bit_layout_witness :
    (∀ k, k < 20 → frame_bit 0xA1 0xB2 0xC3 k = frame_bit 0xA1 0xB2 0xCC k) ∧
    (unit_of (reverse_byte 0xA1) = unit_of (reverse_byte 0xA1) ∧
      id_of (reverse_byte 0xA1) (reverse_byte 0xB2) (reverse_byte 0xC3)
        = id_of (reverse_byte 0xA1) (reverse_byte 0xB2) (reverse_byte 0xCC)) ∧
    id_of (reverse_byte 0xA1) (reverse_byte 0xB2) (reverse_byte 0xC3) = 6764 ∧
    ∑ j in Finset.range 15, frame_bit 0xA1 0xB2 0xC3 (5 + j) * 2 ^ j = 6764 :=
  ⟨by decide,
    frame_bit_layout.2.1 0xA1 0xB2 0xC3 0xA1 0xB2 0xCC (by decide),
    by decide, by decide⟩

/-- C7: end-to-end round trip.  For `unit` in 0..31, `id` in 1..32766 and a 4-bit `h`, a
burst whose 8 rows after inversion are the 24-bit row encoding them, that row not being a
pairing row, yields the one Reading with that unit, that id, learn 0 and the code rendering
`r2 r1 r0` in lowercase hexadecimal. -/
theorem roundtrip (invert : bitbuffer_t → bitbuffer_t) (time_str : String)
    (bitbuffer : bitbuffer_t) (unit id h : Nat)
    (hu : unit < 32) (hid1 : 1 ≤ id) (hid2 : id ≤ 32766) (hh : h < 16)
    (hn : num_rows bitbuffer = 8)
    (hinv : invert bitbuffer = List.replicate 8 (encode_row unit id h))
    (hlearn : ¬ is_pairing_row (encode_row unit id h)) :
    smoke_gs558_callback invert time_str bitbuffer =
      (1, some
        { time := time_str
          model := "Smoke detector GS 558"
          id := id
          unit := unit
          learn := 0
          code := String.mk
            (hex_byte (enc_r2 id h) ++ hex_byte (enc_r1 id) ++ hex_byte (enc_r0 unit id)) }) := by
  obtain ⟨h0, h1, h2, hunit, hid⟩ := decode_enc unit id h hu (by omega) hh
  have hl : is_learn_row (encode_row unit id h) = false := by
    by_contra hc
    exact hlearn ((is_learn_row_iff _).1 (by simpa using hc))
  have hnorm : normalize_rows 0 (List.replicate 8 (encode_row unit id h))
      = (0, List.replicate 8 (encode_row unit id h)) := by
    apply normalize_rows_plain
    intro row hrow
    rw [List.eq_of_mem_replicate hrow]
    exact ⟨rfl, hl⟩
  have hfind : bitbuffer_find_repeated_row (List.replicate 8 (encode_row unit id h)) 3 24 = 0 := by
    have hc := count_repeats_replicate 8 (encode_row unit id h) rfl
    have : List.replicate 8 (encode_row unit id h)
        = encode_row unit id h :: List.replicate 7 (encode_row unit id h) := rfl
    rw [this] at hc ⊢
    exact find_repeated_row_head _ _ rfl (by omega)
  unfold smoke_gs558_callback
  rw [if_neg (by omega), hinv]
  simp only [hnorm, hfind]
  have hget : (List.replicate 8 (encode_row unit id h)).getD (0 : Int).toNat ⟨0, []⟩
      = encode_row unit id h := rfl
  rw [if_neg (by decide), hget]
  unfold decode_row
  have hb0 : byte_at (encode_row unit id h) 0 = reverse_byte (enc_r0 unit id) := rfl
  have hb1 : byte_at (encode_row unit id h) 1 = reverse_byte (enc_r1 id) := rfl
  have hb2 : byte_at (encode_row unit id h) 2 = reverse_byte (enc_r2 id h) := rfl
  simp only [hb0, hb1, hb2, reverse_byte_involutive_aux _ h0, reverse_byte_involutive_aux _ h1,
    reverse_byte_involutive_aux _ h2, hunit, hid, code_of_bytes _ _ _ h0 h1 h2]
  rw [if_neg (by omega)]
  simp [hex_byte]

theorem roundtrip_witness :
    (5 : Nat) < 32 ∧ 1 ≤ (1234 : Nat) ∧ (1234 : Nat) ≤ 32766 ∧ (0xC : Nat) < 16 ∧
    num_rows (List.replicate 8 (⟨24, [0x5D, 0xA6, 0xFC]⟩ : bitrow)) = 8 ∧
    bitbuffer_invert (List.replicate 8 ⟨24, [0x5D, 0xA6, 0xFC]⟩)
      = List.replicate 8 (encode_row 5 1234 0xC) ∧
    encode_row 5 1234 0xC = ⟨24, [0xA2, 0x59, 0x03]⟩ ∧
    ¬ is_pairing_row (encode_row 5 1234 0xC) ∧
    smoke_gs558_callback bitbuffer_invert sample_time
        (List.replicate 8 ⟨24, [0x5D, 0xA6, 0xFC]⟩)
      = (1, some
          { time := sample_time
            model := "Smoke detector GS 558"
            id := 1234
            unit := 5
            learn := 0
            code := "c09a45" }) :=
  ⟨by decide, by decide, by decide, by decide, by decide, by decide, by decide, by decide,
    roundtrip bitbuffer_invert sample_time (List.replicate 8 ⟨24, [0x5D, 0xA6, 0xFC]⟩)
      5 1234 0xC (by decide) (by decide) (by decide) (by decide) (by decide) (by decide)
      (by decide)⟩

/-- C8: a burst with fewer than 3 rows makes the callback return 0 and hand out nothing,
whatever the rows hold. -/
theorem callback_few_rows (invert : bitbuffer_t → bitbuffer_t) (time_str : String)
    (bitbuffer : bitbuffer_t) (h : num_rows bitbuffer < 3) :
    smoke_gs558_callback invert time_str bitbuffer = (0, none) := by
  unfold smoke_gs558_callback
  rw [if_pos h]

theorem callback_few_rows_witness :
    num_rows [⟨24, [0x5E, 0x4D, 0x3C]⟩, (⟨24, [0x5E, 0x4D, 0x3C]⟩ : bitrow)] < 3 ∧
    smoke_gs558_callback bitbuffer_invert sample_time
      [⟨24, [0x5E, 0x4D, 0x3C]⟩, ⟨24, [0x5E, 0x4D, 0x3C]⟩] = (0, none) :=
  ⟨by decide,
    callback_few_rows bitbuffer_invert sample_time
      [⟨24, [0x5E, 0x4D, 0x3C]⟩, ⟨24, [0x5E, 0x4D, 0x3C]⟩] (by decide)⟩

/-- C9: the counter `learn` equals the number of pairing-acknowledgment rows of the burst
(rows after inversion with bit-length at least 24 and first bytes `0x55 0x55 0x55`), and the
learn field of a Reading is 1 if and only if there are at least two such rows, 0 otherwise. -/
theorem learn_flag (invert : bitbuffer_t → bitbuffer_t) (time_str : String)
    (bitbuffer : bitbuffer_t) (ret : Int) (d : data_t)
    (h : smoke_gs558_callback invert time_str bitbuffer = (ret, some d)) :
    learn_count invert bitbuffer = pairing_rows (invert bitbuffer) ∧
    (d.learn = 1 ↔ 2 ≤ pairing_rows (invert bitbuffer)) ∧
    (d.learn = 0 ↔ pairing_rows (invert bitbuffer) < 2) := by
  obtain ⟨_, _, _, _, _, hlearn, _, _, _⟩ := callback_reading invert time_str bitbuffer ret d h
  have hc : learn_count invert bitbuffer = pairing_rows (invert bitbuffer) := by
    unfold learn_count pairing_rows
    rw [normalize_rows_learn, countP_learn_eq]; omega
  rw [hc] at hlearn
  refine ⟨hc, ?_, ?_⟩
  · rw [hlearn]; split <;> omega
  · rw [hlearn]; split <;> omega

theorem learn_flag_witness :
    (bitbuffer_invert
        [⟨24, [0x5E, 0x4D, 0x3C]⟩, ⟨24, [0xAA, 0xAA, 0xAA]⟩, ⟨24, [0x5E, 0x4D, 0x3C]⟩,
         ⟨24, [0xAA, 0xAA, 0xAA]⟩, ⟨24, [0x5E, 0x4D, 0x3C]⟩]
      = [⟨24, [0xA1, 0xB2, 0xC3]⟩, ⟨24, [0x55, 0x55, 0x55]⟩, ⟨24, [0xA1, 0xB2, 0xC3]⟩,
         ⟨24, [0x55, 0x55, 0x55]⟩, ⟨24, [0xA1, 0xB2, 0xC3]⟩]) ∧
    (smoke_gs558_callback bitbuffer_invert sample_time
        [⟨24, [0x5E, 0x4D, 0x3C]⟩, ⟨24, [0xAA, 0xAA, 0xAA]⟩, ⟨24, [0x5E, 0x4D, 0x3C]⟩,
         ⟨24, [0xAA, 0xAA, 0xAA]⟩, ⟨24, [0x5E, 0x4D, 0x3C]⟩]
      = (1, some ⟨sample_time, "Smoke detector GS 558", 6764, 5, 1, "c34d85"⟩)) ∧
    ((1 : Nat) = 1 ↔ 2 ≤ pairing_rows (bitbuffer_invert
        [⟨24, [0x5E, 0x4D, 0x3C]⟩, ⟨24, [0xAA, 0xAA, 0xAA]⟩, ⟨24, [0x5E, 0x4D, 0x3C]⟩,
         ⟨24, [0xAA, 0xAA, 0xAA]⟩, ⟨24, [0x5E, 0x4D, 0x3C]⟩])) ∧
    (bitbuffer_invert
        [⟨24, [0xAA, 0xAA, 0xAA]⟩, ⟨24, [0x5E, 0x4D, 0x3C]⟩, ⟨24, [0x5E, 0x4D, 0x3C]⟩,
         ⟨24, [0x5E, 0x4D, 0x3C]⟩]
      = [⟨24, [0x55, 0x55, 0x55]⟩, ⟨24, [0xA1, 0xB2, 0xC3]⟩, ⟨24, [0xA1, 0xB2, 0xC3]⟩,
         ⟨24, [0xA1, 0xB2, 0xC3]⟩]) ∧
    (smoke_gs558_callback bitbuffer_invert sample_time
        [⟨24, [0xAA, 0xAA, 0xAA]⟩, ⟨24, [0x5E, 0x4D, 0x3C]⟩, ⟨24, [0x5E, 0x4D, 0x3C]⟩,
         ⟨24, [0x5E, 0x4D, 0x3C]⟩]
      = (1, some ⟨sample_time, "Smoke detector GS 558", 6764, 5, 0, "c34d85"⟩)) ∧
    ((0 : Nat) = 0 ↔ pairing_rows (bitbuffer_invert
        [⟨24, [0xAA, 0xAA, 0xAA]⟩, ⟨24, [0x5E, 0x4D, 0x3C]⟩, ⟨24, [0x5E, 0x4D, 0x3C]⟩,
         ⟨24, [0x5E, 0x4D, 0x3C]⟩]) < 2) :=
  ⟨by decide, by decide,
    (learn_flag bitbuffer_invert sample_time _ 1
      ⟨sample_time, "Smoke detector GS 558", 6764, 5, 1, "c34d85"⟩ (by decide)).2.1,
    by decide, by decide,
    (learn_flag bitbuffer_invert sample_time _ 1
      ⟨sample_time, "Smoke detector GS 558", 6764, 5, 0, "c34d85"⟩ (by decide)).2.2⟩

/-- C10 (amended): a row of 26 or 27 bits whose 4th byte is 0 counts like a 24-bit row with
the same first three bytes: replacing it by such a row leaves the result of the callback
unchanged.  A burst of two 24-bit rows and one such row, all with the same first three bytes,
these not being `0x55 0x55 0x55`, reaches the threshold of 3 (the finder result is not
negative), is decoded from those three bytes, and hands out a Reading if and only if the
decoded id is neither 0 nor 0x7FFF. -/
theorem truncated_row_majority :
    (∀ (invert : bitbuffer_t → bitbuffer_t) (time_str : String)
      (bitbuffer bitbuffer' : bitbuffer_t) (pre post : List bitrow) (row row' : bitrow),
      invert bitbuffer = pre ++ row :: post →
      invert bitbuffer' = pre ++ row' :: post →
      num_rows bitbuffer = num_rows (invert bitbuffer) →
      num_rows bitbuffer' = num_rows (invert bitbuffer') →
      (row.bits_per_row = 26 ∨ row.bits_per_row = 27) → byte_at row 3 = 0 →
      row'.bits_per_row = 24 → byte_at row' 0 = byte_at row 0 →
      byte_at row' 1 = byte_at row 1 → byte_at row' 2 = byte_at row 2 →
      smoke_gs558_callback invert time_str bitbuffer
        = smoke_gs558_callback invert time_str bitbuffer') ∧
    (∀ (invert : bitbuffer_t → bitbuffer_t) (time_str : String) (bitbuffer : bitbuffer_t)
      (pre post : List bitrow) (row : bitrow) (b0 b1 b2 : Nat),
      invert bitbuffer = pre ++ row :: post →
      num_rows bitbuffer = num_rows (invert bitbuffer) →
      pre.length + post.length = 2 →
      (∀ x ∈ pre ++ post,
        x.bits_per_row = 24 ∧ byte_at x 0 = b0 ∧ byte_at x 1 = b1 ∧ byte_at x 2 = b2) →
      (row.bits_per_row = 26 ∨ row.bits_per_row = 27) → byte_at row 3 = 0 →
      byte_at row 0 = b0 → byte_at row 1 = b1 → byte_at row 2 = b2 →
      ¬ (b0 = 0x55 ∧ b1 = 0x55 ∧ b2 = 0x55) →
      0 ≤ winning_index invert bitbuffer ∧
      smoke_gs558_callback invert time_str bitbuffer
        = decode_row time_str 0 ⟨24, [b0, b1, b2]⟩ ∧
      (((smoke_gs558_callback invert time_str bitbuffer).1 = 1 ∧
          (smoke_gs558_callback invert time_str bitbuffer).2.isSome) ↔
        (id_of (reverse_byte b0) (reverse_byte b1) (reverse_byte b2) ≠ 0 ∧
          id_of (reverse_byte b0) (reverse_byte b1) (reverse_byte b2) ≠ 0x7FFF))) := by
  constructor
  · intro invert time_str bitbuffer bitbuffer' pre post row row' hinv hinv' hn hn' hbits h3
      hbits' h0 h1 h2
    have hlen : num_rows bitbuffer = num_rows bitbuffer' := by
      rw [hn, hn', hinv, hinv']
      simp [num_rows]
    obtain ⟨e1, e2⟩ := normalize_rows_replace pre post row row' 0
      (fun l => normalize_row_truncated l row row' hbits h3 hbits' h0 h1 h2)
    unfold smoke_gs558_callback
    rw [hlen, hinv, hinv']
    simp only []
    rw [decode_congr time_str _ _ e1 e2]
  · intro invert time_str bitbuffer pre post row b0 b1 b2 hinv hn hlen hrows hbits h3 h0 h1 h2 hp
    have hall : ∀ x ∈ pre ++ row :: post, (x.bits_per_row = 24 ∨
        ((x.bits_per_row = 26 ∨ x.bits_per_row = 27) ∧ byte_at x 3 = 0)) ∧
        byte_at x 0 = b0 ∧ byte_at x 1 = b1 ∧ byte_at x 2 = b2 := by
      intro x hx
      rcases List.mem_append.1 hx with hx | hx
      · obtain ⟨q, q0, q1, q2⟩ := hrows x (List.mem_append_left _ hx)
        exact ⟨Or.inl q, q0, q1, q2⟩
      · rcases List.mem_cons.1 hx with rfl | hx
        · exact ⟨Or.inr ⟨hbits, h3⟩, h0, h1, h2⟩
        · obtain ⟨q, q0, q1, q2⟩ := hrows x (List.mem_append_right _ hx)
          exact ⟨Or.inl q, q0, q1, q2⟩
    have hl3 : (pre ++ row :: post).length = 3 := by
      simp only [List.length_append, List.length_cons]; omega
    obtain ⟨e1, e2⟩ := normalize_rows_uniform b0 b1 b2 hp (pre ++ row :: post) 0 hall
    rw [hl3] at e2
    have hkey : (normalize_rows 0 (pre ++ row :: post)).2.map row_key
        = (List.replicate 3 (⟨24, [b0, b1, b2]⟩ : bitrow)).map row_key := by
      rw [e2]; rfl
    have hfindR : bitbuffer_find_repeated_row (List.replicate 3 (⟨24, [b0, b1, b2]⟩ : bitrow)) 3 24
        = 0 := by
      have hc := count_repeats_replicate 3 (⟨24, [b0, b1, b2]⟩ : bitrow) rfl
      have : List.replicate 3 (⟨24, [b0, b1, b2]⟩ : bitrow)
          = ⟨24, [b0, b1, b2]⟩ :: List.replicate 2 ⟨24, [b0, b1, b2]⟩ := rfl
      rw [this] at hc ⊢
      exact find_repeated_row_head _ _ rfl (by omega)
    have hfind : bitbuffer_find_repeated_row (normalize_rows 0 (invert bitbuffer)).2 3 24 = 0 := by
      rw [hinv, find_repeated_row_key _ _ hkey, hfindR]
    have hcb : smoke_gs558_callback invert time_str bitbuffer
        = decode_row time_str 0 ⟨24, [b0, b1, b2]⟩ := by
      have hn3 : ¬ num_rows bitbuffer < 3 := by
        rw [hn, hinv]; unfold num_rows; omega
      unfold smoke_gs558_callback
      rw [if_neg hn3, hinv]
      simp only []
      rw [decode_congr time_str (normalize_rows 0 (pre ++ row :: post))
        (0, List.replicate 3 (⟨24, [b0, b1, b2]⟩ : bitrow)) e1 hkey]
      simp only [hfindR]
      rfl
    refine ⟨by unfold winning_index normalized; omega, hcb, ?_⟩
    rw [hcb]
    unfold decode_row
    have q0 : byte_at (⟨24, [b0, b1, b2]⟩ : bitrow) 0 = b0 := rfl
    have q1 : byte_at (⟨24, [b0, b1, b2]⟩ : bitrow) 1 = b1 := rfl
    have q2 : byte_at (⟨24, [b0, b1, b2]⟩ : bitrow) 2 = b2 := rfl
    simp only [q0, q1, q2]
    by_cases hid : id_of (reverse_byte b0) (reverse_byte b1) (reverse_byte b2) = 0 ∨
        id_of (reverse_byte b0) (reverse_byte b1) (reverse_byte b2) = 0x7fff
    · rw [if_pos hid]
      rcases hid with h | h <;> simp [h]
    · rw [if_neg hid]
      simp only [not_or] at hid
      simp [hid.1, hid.2]

theorem truncated_row_majority_witness :
    smoke_gs558_callback bitbuffer_invert sample_time
        [⟨24, [0x5E, 0x4D, 0x3C]⟩, ⟨24, [0x5E, 0x4D, 0x3C]⟩, ⟨27, [0x5E, 0x4D, 0x3C, 0xE0]⟩]
      = smoke_gs558_callback bitbuffer_invert sample_time
        [⟨24, [0x5E, 0x4D, 0x3C]⟩, ⟨24, [0x5E, 0x4D, 0x3C]⟩, ⟨24, [0x5E, 0x4D, 0x3C]⟩] ∧
    smoke_gs558_callback bitbuffer_invert sample_time
        [⟨24, [0x5E, 0x4D, 0x3C]⟩, ⟨24, [0x5E, 0x4D, 0x3C]⟩, ⟨27, [0x5E, 0x4D, 0x3C, 0xE0]⟩]
      = decode_row sample_time 0 ⟨24, [0xA1, 0xB2, 0xC3]⟩ ∧
    decode_row sample_time 0 ⟨24, [0xA1, 0xB2, 0xC3]⟩
      = (1, some ⟨sample_time, "Smoke detector GS 558", 6764, 5, 0, "c34d85"⟩) :=
  ⟨truncated_row_majority.1 bitbuffer_invert sample_time
      [⟨24, [0x5E, 0x4D, 0x3C]⟩, ⟨24, [0x5E, 0x4D, 0x3C]⟩, ⟨27, [0x5E, 0x4D, 0x3C, 0xE0]⟩]
      [⟨24, [0x5E, 0x4D, 0x3C]⟩, ⟨24, [0x5E, 0x4D, 0x3C]⟩, ⟨24, [0x5E, 0x4D, 0x3C]⟩]
      [⟨24, [0xA1, 0xB2, 0xC3]⟩, ⟨24, [0xA1, 0xB2, 0xC3]⟩] [] ⟨27, [0xA1, 0xB2, 0xC3, 0]⟩
      ⟨24, [0xA1, 0xB2, 0xC3]⟩ (by decide) (by decide) (by decide) (by decide) (by decide)
      (by decide) (by decide) (by decide) (by decide) (by decide),
    (truncated_row_majority.2 bitbuffer_invert sample_time
      [⟨24, [0x5E, 0x4D, 0x3C]⟩, ⟨24, [0x5E, 0x4D, 0x3C]⟩, ⟨27, [0x5E, 0x4D, 0x3C, 0xE0]⟩]
      [⟨24, [0xA1, 0xB2, 0xC3]⟩, ⟨24, [0xA1, 0xB2, 0xC3]⟩] [] ⟨27, [0xA1, 0xB2, 0xC3, 0]⟩
      0xA1 0xB2 0xC3 (by decide) (by decide) (by decide) (by decide) (by decide)
      (by decide) (by decide) (by decide) (by decide) (by decide)).2.1,
    by decide⟩

/-- C10 (counterexample): two 24-bit rows `00 00 00` and a 27-bit row `00 00 00 00` (after
inversion) reach the threshold of 3, the finder result being 0, yet the callback returns 0 and
hands out no Reading, the decoded id being 0. -/
theorem truncated_row_reading_counterexample :
    bitbuffer_invert
        [⟨24, [0xFF, 0xFF, 0xFF]⟩, ⟨24, [0xFF, 0xFF, 0xFF]⟩, ⟨27, [0xFF, 0xFF, 0xFF, 0xE0]⟩]
      = [⟨24, [0, 0, 0]⟩, ⟨24, [0, 0, 0]⟩, ⟨27, [0, 0, 0, 0]⟩] ∧
    winning_index bitbuffer_invert
        [⟨24, [0xFF, 0xFF, 0xFF]⟩, ⟨24, [0xFF, 0xFF, 0xFF]⟩, ⟨27, [0xFF, 0xFF, 0xFF, 0xE0]⟩]
      = 0 ∧
    row_id (winning_row bitbuffer_invert
        [⟨24, [0xFF, 0xFF, 0xFF]⟩, ⟨24, [0xFF, 0xFF, 0xFF]⟩, ⟨27, [0xFF, 0xFF, 0xFF, 0xE0]⟩])
      = 0 ∧
    smoke_gs558_callback bitbuffer_invert sample_time
        [⟨24, [0xFF, 0xFF, 0xFF]⟩, ⟨24, [0xFF, 0xFF, 0xFF]⟩, ⟨27, [0xFF, 0xFF, 0xFF, 0xE0]⟩]
      = (0, none) := by
  decide

/-! ## Lemmas on the normalizer loop, row by row -/

theorem normalize_row_eq_spec (learn : Nat) (row : bitrow) :
    normalize_row learn row = normalize_row_spec learn row := by
  unfold normalize_row normalize_row_spec
  by_cases hp : is_pairing_row row
  · have hl : is_learn_row row = true := (is_learn_row_iff row).2 hp
    have hp' : row.bits_per_row ≥ 24 ∧ byte_at row 0 = 0x55 ∧ byte_at row 1 = 0x55 ∧
        byte_at row 2 = 0x55 := hp
    rw [if_pos hp']
    simp [hl]
  · have hl : is_learn_row row = false := by
      by_contra hc
      exact hp ((is_learn_row_iff row).1 (by simpa using hc))
    have hp' : ¬ (row.bits_per_row ≥ 24 ∧ byte_at row 0 = 0x55 ∧ byte_at row 1 = 0x55 ∧
        byte_at row 2 = 0x55) := hp
    rw [if_neg hp']
    by_cases ht : (row.bits_per_row = 26 ∨ row.bits_per_row = 27) ∧ byte_at row 3 = 0
    · rw [if_pos ht]
      simp [hl, ht]
    · rw [if_neg ht]
      simp [hl, ht]

theorem normalize_rows_eq_spec : ∀ (rows : List bitrow) (learn : Nat),
    normalize_rows learn rows = normalize_rows_spec learn rows := by
  intro rows
  induction rows with
  | nil => intro learn; rfl
  | cons row rest ih =>
    intro learn
    rw [normalize_rows, normalize_rows_spec, normalize_row_eq_spec, ih]

/-- What one iteration of the loop does to a row, by the three cases of the row as
captured. -/
theorem normalize_row_cases (learn : Nat) (row : bitrow) :
    (is_pairing_row row ∧ normalize_row learn row = (learn + 1, { row with bits_per_row := 0 })) ∨
    (¬ is_pairing_row row ∧ is_truncated_row row ∧
      normalize_row learn row = (learn, { row with bits_per_row := 24 })) ∨
    (¬ is_pairing_row row ∧ ¬ is_truncated_row row ∧ normalize_row learn row = (learn, row)) := by
  rw [normalize_row_eq_spec]
  unfold normalize_row_spec
  by_cases hp : is_pairing_row row
  · left
    exact ⟨hp, if_pos hp⟩
  · right
    by_cases ht : is_truncated_row row
    · left
      refine ⟨hp, ht, ?_⟩
      rw [if_neg hp, if_pos ht]
    · right
      refine ⟨hp, ht, ?_⟩
      rw [if_neg hp, if_neg ht]

/-- The rows after the loop, position by position: the row at index `i` is the result of one
iteration on the captured row at index `i`. -/
theorem normalize_rows_get : ∀ (rows : List bitrow) (learn : Nat) (i : Nat) (row : bitrow),
    rows[i]? = some row →
    ∃ l, (normalize_rows learn rows).2[i]? = some (normalize_row l row).2 := by
  intro rows
  induction rows with
  | nil => intro learn i row h; simp at h
  | cons x xs ih =>
    intro learn i row h
    cases i with
    | zero =>
      simp only [List.getElem?_cons_zero, Option.some.injEq] at h
      subst h
      exact ⟨learn, by simp [normalize_rows]⟩
    | succ i =>
      simp only [List.getElem?_cons_succ] at h
      obtain ⟨l, hl⟩ := ih (normalize_row learn x).1 i row h
      exact ⟨l, by simpa [normalize_rows] using hl⟩

theorem normalize_rows_mem : ∀ (rows : List bitrow) (learn : Nat) (row' : bitrow),
    row' ∈ (normalize_rows learn rows).2 →
    ∃ row ∈ rows, ∃ l, row' = (normalize_row l row).2 := by
  intro rows
  induction rows with
  | nil => intro learn row' h; simp [normalize_rows] at h
  | cons x xs ih =>
    intro learn row' h
    rw [normalize_rows] at h
    rcases List.mem_cons.1 h with h | h
    · exact ⟨x, List.mem_cons_self _ _, learn, h⟩
    · obtain ⟨row, hrow, l, hl⟩ := ih _ row' h
      exact ⟨row, List.mem_cons_of_mem _ hrow, l, hl⟩

theorem normalize_rows_bb : ∀ (rows : List bitrow) (learn : Nat),
    (normalize_rows learn rows).2.map (fun row => row.bb) = rows.map (fun row => row.bb) := by
  intro rows
  induction rows with
  | nil => intro learn; rfl
  | cons x xs ih =>
    intro learn
    rw [normalize_rows]
    simp only [List.map_cons, ih]
    rfl

/-! ## The claims, continued -/

/-- C13: the loop body of the code, two consecutive `if` statements, gives for every row and
every counter the same bit-length, the same row and the same counter as the `if ... else if`
formulation of the spec, and so does the whole loop; a row that matched the pairing rule has
bit-length 0 afterwards (it is not truncated to 24) and counts once. -/
theorem normalizer_refines_spec :
    (∀ (learn : Nat) (row : bitrow), normalize_row learn row = normalize_row_spec learn row) ∧
    (∀ (learn : Nat) (rows : List bitrow),
      normalize_rows learn rows = normalize_rows_spec learn rows) ∧
    (∀ (learn : Nat) (row : bitrow), is_pairing_row row →
      (normalize_row learn row).2.bits_per_row = 0 ∧ (normalize_row learn row).1 = learn + 1) := by
  refine ⟨normalize_row_eq_spec, fun learn rows => normalize_rows_eq_spec rows learn, ?_⟩
  intro learn row hp
  rcases normalize_row_cases learn row with ⟨_, h⟩ | ⟨hn, _, _⟩ | ⟨hn, _, _⟩
  · rw [h]; exact ⟨rfl, rfl⟩
  · exact absurd hp hn
  · exact absurd hp hn

theorem normalizer_refines_spec_witness :
    is_pairing_row ⟨27, [0x55, 0x55, 0x55, 0x00]⟩ ∧
    ((normalize_row 1 ⟨27, [0x55, 0x55, 0x55, 0x00]⟩).2.bits_per_row = 0 ∧
      (normalize_row 1 ⟨27, [0x55, 0x55, 0x55, 0x00]⟩).1 = 1 + 1) ∧
    normalize_rows 0 [⟨27, [0x55, 0x55, 0x55, 0x00]⟩, ⟨27, [0xA1, 0xB2, 0xC3, 0x00]⟩,
        ⟨26, [0xA1, 0xB2, 0xC3, 0x40]⟩]
      = (1, [⟨0, [0x55, 0x55, 0x55, 0x00]⟩, ⟨24, [0xA1, 0xB2, 0xC3, 0x00]⟩,
        ⟨26, [0xA1, 0xB2, 0xC3, 0x40]⟩]) :=
  ⟨by decide, normalizer_refines_spec.2.2 1 ⟨27, [0x55, 0x55, 0x55, 0x00]⟩ (by decide),
    by decide⟩

/-- C14 (amended): after the normalizer loop the number of rows and every row's stored bytes
are unchanged; for every row the bit-length is 0, 24 or the captured length; it is 0 exactly
for pairing rows and for rows captured with length 0, and 24 only if the captured length was
24, 26 or 27; a row matching neither rule keeps its captured bit-length. -/
theorem normalizer_invariant (learn : Nat) (rows : List bitrow) :
    (normalize_rows learn rows).2.length = rows.length ∧
    (normalize_rows learn rows).2.map (fun row => row.bb) = rows.map (fun row => row.bb) ∧
    ∀ (i : Nat) (row : bitrow), rows[i]? = some row →
      ∃ row', (normalize_rows learn rows).2[i]? = some row' ∧ row'.bb = row.bb ∧
        (row'.bits_per_row = 0 ∨ row'.bits_per_row = 24 ∨
          row'.bits_per_row = row.bits_per_row) ∧
        (row'.bits_per_row = 0 ↔ (is_pairing_row row ∨ row.bits_per_row = 0)) ∧
        (row'.bits_per_row = 24 →
          row.bits_per_row = 24 ∨ row.bits_per_row = 26 ∨ row.bits_per_row = 27) ∧
        (¬ is_pairing_row row → ¬ is_truncated_row row →
          row'.bits_per_row = row.bits_per_row) := by
  refine ⟨normalize_rows_length rows learn, normalize_rows_bb rows learn, ?_⟩
  intro i row hi
  obtain ⟨l, hl⟩ := normalize_rows_get rows learn i row hi
  refine ⟨(normalize_row l row).2, hl, ?_⟩
  rcases normalize_row_cases l row with ⟨hp, h⟩ | ⟨hp, ht, h⟩ | ⟨hp, ht, h⟩
  · rw [h]
    refine ⟨rfl, Or.inl rfl, ?_, ?_, ?_⟩
    · exact ⟨fun _ => Or.inl hp, fun _ => rfl⟩
    · intro h24; simp at h24
    · intro hn; exact absurd hp hn
  · rw [h]
    refine ⟨rfl, Or.inr (Or.inl rfl), ?_, ?_, ?_⟩
    · constructor
      · intro h0; simp at h0
      · intro h0
        rcases h0 with h0 | h0
        · exact absurd h0 hp
        · rcases ht.1 with h26 | h27 <;> omega
    · intro _
      rcases ht.1 with h26 | h27
      · exact Or.inr (Or.inl h26)
      · exact Or.inr (Or.inr h27)
    · intro _ hnt; exact absurd ht hnt
  · rw [h]
    refine ⟨rfl, Or.inr (Or.inr rfl), ?_, ?_, ?_⟩
    · constructor
      · intro h0; exact Or.inr h0
      · intro h0
        rcases h0 with h0 | h0
        · exact absurd h0 hp
        · exact h0
    · intro h24; exact Or.inl h24
    · intro _ _; rfl

theorem normalizer_invariant_witness :
    ([⟨24, [0x55, 0x55, 0x55]⟩, ⟨27, [0xA1, 0xB2, 0xC3, 0x00]⟩,
        (⟨12, [0xA1, 0xB0]⟩ : bitrow)])[1]? = some ⟨27, [0xA1, 0xB2, 0xC3, 0x00]⟩ ∧
    (normalize_rows 0 [⟨24, [0x55, 0x55, 0x55]⟩, ⟨27, [0xA1, 0xB2, 0xC3, 0x00]⟩,
        ⟨12, [0xA1, 0xB0]⟩]).2
      = [⟨0, [0x55, 0x55, 0x55]⟩, ⟨24, [0xA1, 0xB2, 0xC3, 0x00]⟩, ⟨12, [0xA1, 0xB0]⟩] ∧
    ∃ row', (normalize_rows 0 [⟨24, [0x55, 0x55, 0x55]⟩, ⟨27, [0xA1, 0xB2, 0xC3, 0x00]⟩,
        ⟨12, [0xA1, 0xB0]⟩]).2[1]? = some row' ∧
      row'.bb = [0xA1, 0xB2, 0xC3, 0x00] ∧
      (row'.bits_per_row = 0 ∨ row'.bits_per_row = 24 ∨ row'.bits_per_row = 27) ∧
      (row'.bits_per_row = 0 ↔
        (is_pairing_row ⟨27, [0xA1, 0xB2, 0xC3, 0x00]⟩ ∨ (27 : Nat) = 0)) ∧
      (row'.bits_per_row = 24 → (27 : Nat) = 24 ∨ (27 : Nat) = 26 ∨ (27 : Nat) = 27) ∧
      (¬ is_pairing_row ⟨27, [0xA1, 0xB2, 0xC3, 0x00]⟩ →
        ¬ is_truncated_row ⟨27, [0xA1, 0xB2, 0xC3, 0x00]⟩ → row'.bits_per_row = 27) :=
  ⟨by decide, by decide,
    (normalizer_invariant 0 [⟨24, [0x55, 0x55, 0x55]⟩, ⟨27, [0xA1, 0xB2, 0xC3, 0x00]⟩,
      ⟨12, [0xA1, 0xB0]⟩]).2.2 1 ⟨27, [0xA1, 0xB2, 0xC3, 0x00]⟩ (by decide)⟩

/-- C14 (counterexample): a row captured with bit-length 0 is not a pairing row, yet its
bit-length after the normalizer loop is 0. -/
theorem normalizer_zero_row_counterexample :
    ¬ is_pairing_row ⟨0, []⟩ ∧
    (normalize_rows 0 [⟨0, []⟩, ⟨24, [0xA1, 0xB2, 0xC3]⟩, ⟨24, [0xA1, 0xB2, 0xC3]⟩,
        ⟨24, [0xA1, 0xB2, 0xC3]⟩]).2[0]? = some ⟨0, []⟩ ∧
    ¬ (∀ (learn : Nat) (rows : List bitrow) (i : Nat) (row row' : bitrow),
        rows[i]? = some row → (normalize_rows learn rows).2[i]? = some row' →
        (row'.bits_per_row = 0 ↔ is_pairing_row row)) := by
  refine ⟨by decide, by decide, ?_⟩
  intro h
  have h0 := h 0 [⟨0, []⟩] 0 ⟨0, []⟩ ⟨0, []⟩ (by decide) (by decide)
  revert h0
  decide

theorem count_repeats_eq_frame_count (rows : List bitrow) (f : bitrow)
    (h : f.bits_per_row = 24) : count_repeats rows 24 f = frame_count rows f := by
  unfold count_repeats frame_count
  apply List.countP_congr
  intro x _
  rw [compare_rows_24]
  simp only [h, decide_True, Bool.true_and, Bool.and_eq_true, decide_eq_true_eq]
  constructor
  · rintro ⟨hx, h0, h1, h2⟩
    exact ⟨hx, h0.symm, h1.symm, h2.symm⟩
  · rintro ⟨hx, h0, h1, h2⟩
    exact ⟨hx, h0.symm, h1.symm, h2.symm⟩

/-- A burst whose rows after inversion are `n ≥ 3` copies of one 24-bit row that is not a
pairing row is decoded from that row with the counter at 0. -/
theorem callback_replicate (invert : bitbuffer_t → bitbuffer_t) (time_str : String)
    (bitbuffer : bitbuffer_t) (row : bitrow) (n : Nat) (hn3 : 3 ≤ n)
    (hn : num_rows bitbuffer = n) (hinv : invert bitbuffer = List.replicate n row)
    (hb : row.bits_per_row = 24) (hp : ¬ is_pairing_row row) :
    smoke_gs558_callback invert time_str bitbuffer = decode_row time_str 0 row := by
  have hl : is_learn_row row = false := by
    by_contra hc
    exact hp ((is_learn_row_iff _).1 (by simpa using hc))
  have hnorm : normalize_rows 0 (List.replicate n row) = (0, List.replicate n row) := by
    apply normalize_rows_plain
    intro x hx
    rw [List.eq_of_mem_replicate hx]
    exact ⟨hb, hl⟩
  obtain ⟨m, rfl⟩ : ∃ m, n = m + 1 := ⟨n - 1, by omega⟩
  have hfind : bitbuffer_find_repeated_row (List.replicate (m + 1) row) 3 24 = 0 := by
    have hc := count_repeats_replicate (m + 1) row hb
    rw [List.replicate_succ] at hc ⊢
    exact find_repeated_row_head _ _ hb (by omega)
  unfold smoke_gs558_callback
  rw [if_neg (by omega), hinv]
  simp only [hnorm, hfind]
  rw [if_neg (by decide)]
  rfl

/-- C11 (amended): a burst of exactly 3 identical 24-bit rows (after inversion) that are not
pairing rows is decoded from that row with learn 0: it yields one Reading with learn 0 when
the decoded id is neither 0 nor 0x7FFF, and no Reading when the id is 0 or 0x7FFF. -/
theorem three_identical_rows (invert : bitbuffer_t → bitbuffer_t) (time_str : String)
    (bitbuffer : bitbuffer_t) (row : bitrow)
    (hn : num_rows bitbuffer = 3) (hinv : invert bitbuffer = [row, row, row])
    (hb : row.bits_per_row = 24) (hp : ¬ is_pairing_row row) :
    ((row_id row ≠ 0 ∧ row_id row ≠ 0x7FFF) →
      smoke_gs558_callback invert time_str bitbuffer =
        (1, some
          { time := time_str
            model := "Smoke detector GS 558"
            id := row_id row
            unit := unit_of (reverse_byte (byte_at row 0))
            learn := 0
            code := code_of (reverse_byte (byte_at row 0)) (reverse_byte (byte_at row 1))
              (reverse_byte (byte_at row 2)) })) ∧
    ((row_id row = 0 ∨ row_id row = 0x7FFF) →
      smoke_gs558_callback invert time_str bitbuffer = (0, none)) := by
  have hcb := callback_replicate invert time_str bitbuffer row 3 (by omega) hn hinv hb hp
  rw [hcb, decode_row_eq]
  constructor
  · intro hv
    rw [if_neg (by intro h; rcases h with h | h; exact hv.1 h; exact hv.2 h)]
    rfl
  · intro hr
    rw [if_pos hr]

theorem three_identical_rows_witness :
    num_rows [⟨24, [0x5E, 0x4D, 0x3C]⟩, ⟨24, [0x5E, 0x4D, 0x3C]⟩,
      (⟨24, [0x5E, 0x4D, 0x3C]⟩ : bitrow)] = 3 ∧
    bitbuffer_invert [⟨24, [0x5E, 0x4D, 0x3C]⟩, ⟨24, [0x5E, 0x4D, 0x3C]⟩,
        ⟨24, [0x5E, 0x4D, 0x3C]⟩]
      = [⟨24, [0xA1, 0xB2, 0xC3]⟩, ⟨24, [0xA1, 0xB2, 0xC3]⟩, ⟨24, [0xA1, 0xB2, 0xC3]⟩] ∧
    ¬ is_pairing_row ⟨24, [0xA1, 0xB2, 0xC3]⟩ ∧
    (row_id ⟨24, [0xA1, 0xB2, 0xC3]⟩ ≠ 0 ∧ row_id ⟨24, [0xA1, 0xB2, 0xC3]⟩ ≠ 0x7FFF) ∧
    smoke_gs558_callback bitbuffer_invert sample_time [⟨24, [0x5E, 0x4D, 0x3C]⟩,
        ⟨24, [0x5E, 0x4D, 0x3C]⟩, ⟨24, [0x5E, 0x4D, 0x3C]⟩]
      = (1, some ⟨sample_time, "Smoke detector GS 558", 6764, 5, 0, "c34d85"⟩) :=
  ⟨by decide, by decide, by decide, by decide,
    (three_identical_rows bitbuffer_invert sample_time
      [⟨24, [0x5E, 0x4D, 0x3C]⟩, ⟨24, [0x5E, 0x4D, 0x3C]⟩, ⟨24, [0x5E, 0x4D, 0x3C]⟩]
      ⟨24, [0xA1, 0xB2, 0xC3]⟩ (by decide) (by decide) (by decide) (by decide)).1
      (by decide)⟩

/-- C11 (counterexample): three identical 24-bit rows `00 00 00` (after inversion), none of
them a pairing row, give id 0 and the callback returns 0 without a Reading. -/
theorem three_identical_rows_counterexample :
    bitbuffer_invert [⟨24, [0xFF, 0xFF, 0xFF]⟩, ⟨24, [0xFF, 0xFF, 0xFF]⟩,
        ⟨24, [0xFF, 0xFF, 0xFF]⟩]
      = [⟨24, [0, 0, 0]⟩, ⟨24, [0, 0, 0]⟩, ⟨24, [0, 0, 0]⟩] ∧
    pairing_rows (bitbuffer_invert [⟨24, [0xFF, 0xFF, 0xFF]⟩, ⟨24, [0xFF, 0xFF, 0xFF]⟩,
        ⟨24, [0xFF, 0xFF, 0xFF]⟩]) = 0 ∧
    row_id ⟨24, [0, 0, 0]⟩ = 0 ∧
    smoke_gs558_callback bitbuffer_invert sample_time [⟨24, [0xFF, 0xFF, 0xFF]⟩,
        ⟨24, [0xFF, 0xFF, 0xFF]⟩, ⟨24, [0xFF, 0xFF, 0xFF]⟩] = (0, none) := by
  decide

/-- C12: whenever a Reading is produced, the finder result is the index `k` of the winning
row in the normalized burst; that row has bit-length 24, at least 3 rows of bit-length 24 of
the normalized burst carry its first three bytes, the Reading is decoded from it, and no row
of smaller index has bit-length 24 and at least 3 such matches.  When no row of bit-length 24
has at least 3 matches, the callback returns 0 and produces no Reading. -/
theorem winning_row_first_majority :
    (∀ (invert : bitbuffer_t → bitbuffer_t) (time_str : String) (bitbuffer : bitbuffer_t)
      (ret : Int) (d : data_t),
      smoke_gs558_callback invert time_str bitbuffer = (ret, some d) →
      ∃ k : Nat, winning_index invert bitbuffer = (k : Int) ∧
        (normalized invert bitbuffer)[k]? = some (winning_row invert bitbuffer) ∧
        (winning_row invert bitbuffer).bits_per_row = 24 ∧
        3 ≤ frame_count (normalized invert bitbuffer) (winning_row invert bitbuffer) ∧
        d.id = row_id (winning_row invert bitbuffer) ∧
        d.unit = unit_of (reverse_byte (byte_at (winning_row invert bitbuffer) 0)) ∧
        ∀ (j : Nat) (row : bitrow), j < k → (normalized invert bitbuffer)[j]? = some row →
          ¬ (row.bits_per_row = 24 ∧ 3 ≤ frame_count (normalized invert bitbuffer) row)) ∧
    (∀ (invert : bitbuffer_t → bitbuffer_t) (time_str : String) (bitbuffer : bitbuffer_t),
      (∀ row ∈ normalized invert bitbuffer,
        ¬ (row.bits_per_row = 24 ∧ 3 ≤ frame_count (normalized invert bitbuffer) row)) →
      smoke_gs558_callback invert time_str bitbuffer = (0, none)) := by
  constructor
  · intro invert time_str bitbuffer ret d h
    obtain ⟨_, hr, _⟩ := callback_some invert time_str bitbuffer ret d h
    obtain ⟨_, _, _, hid, hunit, _, _, _, _⟩ :=
      callback_reading invert time_str bitbuffer ret d h
    rcases find_repeated_from_spec (normalized invert bitbuffer) 3 24
        (normalized invert bitbuffer) 0 with ⟨h1, _⟩ | ⟨k, row, hk, h1, h2, h3⟩
    · exfalso
      have : bitbuffer_find_repeated_row (normalized invert bitbuffer) 3 24 = -1 := h1
      have hr' : (0 : Int) ≤ bitbuffer_find_repeated_row (normalized invert bitbuffer) 3 24 := hr
      omega
    · have hwi : winning_index invert bitbuffer = (k : Int) := by
        show find_repeated_from _ 3 24 _ 0 = _
        rw [h1]; simp
      have hwr : winning_row invert bitbuffer = row := by
        unfold winning_row
        rw [hwi, Int.toNat_ofNat, List.getD_eq_getElem?_getD, hk]
        rfl
      refine ⟨k, hwi, by rw [hwr]; exact hk, by rw [hwr]; exact h2.1, ?_, hid, hunit, ?_⟩
      · rw [hwr, ← count_repeats_eq_frame_count _ _ h2.1]
        exact h2.2
      · intro j r hj hjr hc
        apply h3 j r hj hjr
        exact ⟨hc.1, by rw [count_repeats_eq_frame_count _ _ hc.1]; exact hc.2⟩
  · intro invert time_str bitbuffer hnone
    have hneg : winning_index invert bitbuffer < 0 := by
      rcases find_repeated_from_spec (normalized invert bitbuffer) 3 24
          (normalized invert bitbuffer) 0 with ⟨h1, _⟩ | ⟨k, row, hk, _, h2, _⟩
      · have : winning_index invert bitbuffer = -1 := h1
        omega
      · exfalso
        apply hnone row (List.getElem?_mem hk)
        exact ⟨h2.1, by rw [← count_repeats_eq_frame_count _ _ h2.1]; exact h2.2⟩
    rw [callback_eq]
    by_cases hn : num_rows bitbuffer < 3
    · rw [if_pos hn]
    · rw [if_neg hn, if_pos hneg]

theorem winning_row_first_majority_witness :
    smoke_gs558_callback bitbuffer_invert sample_time
        [⟨12, [0x5E, 0x40]⟩, ⟨24, [0x5E, 0x4D, 0x3C]⟩, ⟨24, [0xAA, 0xAA, 0xAA]⟩,
         ⟨24, [0x5E, 0x4D, 0x3C]⟩, ⟨24, [0x5E, 0x4D, 0x3C]⟩]
      = (1, some ⟨sample_time, "Smoke detector GS 558", 6764, 5, 0, "c34d85"⟩) ∧
    winning_index bitbuffer_invert
        [⟨12, [0x5E, 0x40]⟩, ⟨24, [0x5E, 0x4D, 0x3C]⟩, ⟨24, [0xAA, 0xAA, 0xAA]⟩,
         ⟨24, [0x5E, 0x4D, 0x3C]⟩, ⟨24, [0x5E, 0x4D, 0x3C]⟩] = 1 ∧
    ∃ k : Nat, winning_index bitbuffer_invert
        [⟨12, [0x5E, 0x40]⟩, ⟨24, [0x5E, 0x4D, 0x3C]⟩, ⟨24, [0xAA, 0xAA, 0xAA]⟩,
         ⟨24, [0x5E, 0x4D, 0x3C]⟩, ⟨24, [0x5E, 0x4D, 0x3C]⟩] = (k : Int) ∧
      3 ≤ frame_count (normalized bitbuffer_invert
        [⟨12, [0x5E, 0x40]⟩, ⟨24, [0x5E, 0x4D, 0x3C]⟩, ⟨24, [0xAA, 0xAA, 0xAA]⟩,
         ⟨24, [0x5E, 0x4D, 0x3C]⟩, ⟨24, [0x5E, 0x4D, 0x3C]⟩])
        (winning_row bitbuffer_invert
        [⟨12, [0x5E, 0x40]⟩, ⟨24, [0x5E, 0x4D, 0x3C]⟩, ⟨24, [0xAA, 0xAA, 0xAA]⟩,
         ⟨24, [0x5E, 0x4D, 0x3C]⟩, ⟨24, [0x5E, 0x4D, 0x3C]⟩]) :=
  ⟨by decide, by decide,
    match winning_row_first_majority.1 bitbuffer_invert sample_time
      [⟨12, [0x5E, 0x40]⟩, ⟨24, [0x5E, 0x4D, 0x3C]⟩, ⟨24, [0xAA, 0xAA, 0xAA]⟩,
       ⟨24, [0x5E, 0x4D, 0x3C]⟩, ⟨24, [0x5E, 0x4D, 0x3C]⟩] 1
      ⟨sample_time, "Smoke detector GS 558", 6764, 5, 0, "c34d85"⟩ (by decide) with
    | ⟨k, h1, _, _, h4, _⟩ => ⟨k, h1, h4⟩⟩

/-- When the finder result is not negative, the winning row has bit-length 24 and stems from
a captured row with the same stored bytes that is not a pairing row and has bit-length 24, 26
or 27. -/
theorem winning_row_origin (invert : bitbuffer_t → bitbuffer_t) (bitbuffer : bitbuffer_t)
    (h : 0 ≤ winning_index invert bitbuffer) :
    (winning_row invert bitbuffer).bits_per_row = 24 ∧
    (normalized invert bitbuffer)[(winning_index invert bitbuffer).toNat]?
      = some (winning_row invert bitbuffer) ∧
    ∃ row ∈ invert bitbuffer, (winning_row invert bitbuffer).bb = row.bb ∧
      ¬ is_pairing_row row ∧
      (row.bits_per_row = 24 ∨ row.bits_per_row = 26 ∨ row.bits_per_row = 27) := by
  obtain ⟨k, w, hk, hfind, hbits, _, _⟩ :=
    find_repeated_row_nonneg (normalized invert bitbuffer) 3 24 h
  have hwi : winning_index invert bitbuffer = (k : Int) := hfind
  have hwr : winning_row invert bitbuffer = w := by
    unfold winning_row
    rw [hwi, Int.toNat_ofNat, List.getD_eq_getElem?_getD, hk]
    rfl
  rw [hwr, hwi, Int.toNat_ofNat]
  refine ⟨hbits, hk, ?_⟩
  obtain ⟨row, hrow, l, hl⟩ := normalize_rows_mem (invert bitbuffer) 0 w (List.getElem?_mem hk)
  refine ⟨row, hrow, ?_⟩
  rcases normalize_row_cases l row with ⟨_, hc⟩ | ⟨hp, ht, hc⟩ | ⟨hp, _, hc⟩
  · rw [hl, hc] at hbits
    simp at hbits
  · rw [hl, hc]
    refine ⟨rfl, hp, ?_⟩
    rcases ht.1 with h26 | h27
    · exact Or.inr (Or.inl h26)
    · exact Or.inr (Or.inr h27)
  · rw [hl, hc] at hbits ⊢
    exact ⟨rfl, hp, Or.inl hbits⟩

theorem byte_at_of_bb {a b : bitrow} (h : a.bb = b.bb) (i : Nat) : byte_at a i = byte_at b i := by
  unfold byte_at
  rw [h]

theorem byte_at_lt (row : bitrow) (h : ∀ x ∈ row.bb, x < 256) (i : Nat) : byte_at row i < 256 := by
  unfold byte_at
  rw [List.getD_eq_getElem?_getD]
  cases hi : row.bb[i]? with
  | none => simp
  | some x => exact h x (List.getElem?_mem hi)

/-- The winning row never carries the bytes `0x55 0x55 0x55`. -/
theorem winning_row_not_learn (invert : bitbuffer_t → bitbuffer_t) (bitbuffer : bitbuffer_t)
    (h : 0 ≤ winning_index invert bitbuffer) :
    ¬ (byte_at (winning_row invert bitbuffer) 0 = 0x55 ∧
      byte_at (winning_row invert bitbuffer) 1 = 0x55 ∧
      byte_at (winning_row invert bitbuffer) 2 = 0x55) := by
  obtain ⟨_, _, row, _, hbb, hp, hbits⟩ := winning_row_origin invert bitbuffer h
  rintro ⟨h0, h1, h2⟩
  apply hp
  rw [byte_at_of_bb hbb] at h0 h1 h2
  exact ⟨by omega, h0, h1, h2⟩

theorem code_of_value (r0 r1 r2 : Nat) (h0 : r0 < 256) (h1 : r1 < 256) (h2 : r2 < 256) :
    hex_value (code_of r0 r1 r2).toList = r2 * 65536 + r1 * 256 + r0 := by
  rw [code_of_bytes r0 r1 r2 h0 h1 h2]
  show hex_value [_, _, _, _, _, _] = _
  rw [hex_value_six _ _ _ _ _ _ (by omega) (by omega) (by omega) (by omega) (by omega)
    (by omega)]
  omega

/-- When no normalized row has bit-length 24 the callback returns 0 without a Reading. -/
theorem callback_no_24 (invert : bitbuffer_t → bitbuffer_t) (time_str : String)
    (bitbuffer : bitbuffer_t)
    (h : ∀ row ∈ normalized invert bitbuffer, row.bits_per_row ≠ 24) :
    smoke_gs558_callback invert time_str bitbuffer = (0, none) := by
  have hneg : winning_index invert bitbuffer < 0 := by
    by_contra hc
    have hc' : 0 ≤ bitbuffer_find_repeated_row (normalized invert bitbuffer) 3 24 := by
      have : ¬ winning_index invert bitbuffer < 0 := hc
      unfold winning_index at this
      omega
    obtain ⟨k, w, hk, _, hbits, _, _⟩ :=
      find_repeated_row_nonneg (normalized invert bitbuffer) 3 24 hc'
    exact h w (List.getElem?_mem hk) hbits
  rw [callback_eq]
  by_cases hn : num_rows bitbuffer < 3
  · rw [if_pos hn]
  · rw [if_neg hn, if_pos hneg]

/-- C16: the winning Frame is never the bytes `0x55 0x55 0x55`; with `uint8_t` row storage no
Reading has the code `aaaaaa` (the code of unit 10, id 21845 with top nibble `a`); a burst
all of whose rows are pairing rows, such as any number of 24-bit rows `55 55 55`, makes the
callback return 0 without a Reading. -/
theorem learn_pattern_never_decoded :
    (∀ (invert : bitbuffer_t → bitbuffer_t) (bitbuffer : bitbuffer_t),
      0 ≤ winning_index invert bitbuffer →
      ¬ (byte_at (winning_row invert bitbuffer) 0 = 0x55 ∧
        byte_at (winning_row invert bitbuffer) 1 = 0x55 ∧
        byte_at (winning_row invert bitbuffer) 2 = 0x55)) ∧
    (∀ (invert : bitbuffer_t → bitbuffer_t) (time_str : String) (bitbuffer : bitbuffer_t)
      (ret : Int) (d : data_t), bytes_ok (invert bitbuffer) →
      smoke_gs558_callback invert time_str bitbuffer = (ret, some d) → d.code ≠ "aaaaaa") ∧
    (code_of 0xAA 0xAA 0xAA = "aaaaaa" ∧ unit_of 0xAA = 10 ∧ id_of 0xAA 0xAA 0xAA = 21845) ∧
    (∀ (invert : bitbuffer_t → bitbuffer_t) (time_str : String) (bitbuffer : bitbuffer_t),
      (∀ row ∈ invert bitbuffer, is_pairing_row row) →
      smoke_gs558_callback invert time_str bitbuffer = (0, none)) ∧
    (∀ (invert : bitbuffer_t → bitbuffer_t) (time_str : String) (bitbuffer : bitbuffer_t)
      (n : Nat), invert bitbuffer = List.replicate n ⟨24, [0x55, 0x55, 0x55]⟩ →
      smoke_gs558_callback invert time_str bitbuffer = (0, none)) := by
  have hall : ∀ (invert : bitbuffer_t → bitbuffer_t) (time_str : String)
      (bitbuffer : bitbuffer_t), (∀ row ∈ invert bitbuffer, is_pairing_row row) →
      smoke_gs558_callback invert time_str bitbuffer = (0, none) := by
    intro invert time_str bitbuffer hp
    apply callback_no_24
    intro w hw hbits
    obtain ⟨row, hrow, l, hl⟩ := normalize_rows_mem (invert bitbuffer) 0 w hw
    rcases normalize_row_cases l row with ⟨_, hc⟩ | ⟨hn, _, _⟩ | ⟨hn, _, _⟩
    · rw [hl, hc] at hbits
      simp at hbits
    · exact hn (hp row hrow)
    · exact hn (hp row hrow)
  refine ⟨winning_row_not_learn, ?_, by decide, hall, ?_⟩
  · intro invert time_str bitbuffer ret d hok h hcode
    obtain ⟨_, hr, _⟩ := callback_some invert time_str bitbuffer ret d h
    obtain ⟨_, _, _, _, _, _, hc, _, _⟩ := callback_reading invert time_str bitbuffer ret d h
    have hr' : 0 ≤ winning_index invert bitbuffer := hr
    obtain ⟨_, _, row, hrow, hbb, _, _⟩ := winning_row_origin invert bitbuffer hr'
    have hlt : ∀ i, byte_at (winning_row invert bitbuffer) i < 256 := by
      intro i
      rw [byte_at_of_bb hbb]
      exact byte_at_lt row (hok row hrow) i
    have hv := code_of_value _ _ _
      (reverse_byte_lt (byte_at (winning_row invert bitbuffer) 0))
      (reverse_byte_lt (byte_at (winning_row invert bitbuffer) 1))
      (reverse_byte_lt (byte_at (winning_row invert bitbuffer) 2))
    rw [← hc, hcode] at hv
    have hv' : hex_value ("aaaaaa" : String).toList = 11184810 := by decide
    rw [hv'] at hv
    have b0 := reverse_byte_lt (byte_at (winning_row invert bitbuffer) 0)
    have b1 := reverse_byte_lt (byte_at (winning_row invert bitbuffer) 1)
    have b2 := reverse_byte_lt (byte_at (winning_row invert bitbuffer) 2)
    have e0 : reverse_byte (byte_at (winning_row invert bitbuffer) 0) = 0xAA := by omega
    have e1 : reverse_byte (byte_at (winning_row invert bitbuffer) 1) = 0xAA := by omega
    have e2 : reverse_byte (byte_at (winning_row invert bitbuffer) 2) = 0xAA := by omega
    have i0 := reverse_byte_involutive_aux _ (hlt 0)
    have i1 := reverse_byte_involutive_aux _ (hlt 1)
    have i2 := reverse_byte_involutive_aux _ (hlt 2)
    rw [e0] at i0
    rw [e1] at i1
    rw [e2] at i2
    have r55 : reverse_byte 0xAA = 0x55 := by decide
    rw [r55] at i0 i1 i2
    exact winning_row_not_learn invert bitbuffer hr' ⟨i0.symm, i1.symm, i2.symm⟩
  · intro invert time_str bitbuffer n hinv
    apply hall
    intro row hrow
    rw [hinv] at hrow
    rw [List.eq_of_mem_replicate hrow]
    decide

theorem learn_pattern_never_decoded_witness :
    bytes_ok (bitbuffer_invert [⟨24, [0x5E, 0x4D, 0x3C]⟩, ⟨24, [0x5E, 0x4D, 0x3C]⟩,
        ⟨24, [0x5E, 0x4D, 0x3C]⟩]) ∧
    (⟨sample_time, "Smoke detector GS 558", 6764, 5, 0, "c34d85"⟩ : data_t).code ≠ "aaaaaa" ∧
    bitbuffer_invert (List.replicate 8 ⟨24, [0xAA, 0xAA, 0xAA]⟩)
      = List.replicate 8 ⟨24, [0x55, 0x55, 0x55]⟩ ∧
    smoke_gs558_callback bitbuffer_invert sample_time
      (List.replicate 8 ⟨24, [0xAA, 0xAA, 0xAA]⟩) = (0, none) :=
  ⟨by decide,
    learn_pattern_never_decoded.2.1 bitbuffer_invert sample_time
      [⟨24, [0x5E, 0x4D, 0x3C]⟩, ⟨24, [0x5E, 0x4D, 0x3C]⟩, ⟨24, [0x5E, 0x4D, 0x3C]⟩] 1
      ⟨sample_time, "Smoke detector GS 558", 6764, 5, 0, "c34d85"⟩ (by decide) (by decide),
    by decide,
    learn_pattern_never_decoded.2.2.2.2 bitbuffer_invert sample_time
      (List.replicate 8 ⟨24, [0xAA, 0xAA, 0xAA]⟩) 8 (by decide)⟩

/-- C17: only the first majority row is considered.  In the burst of 3 rows `00 00 00`
followed by 3 rows `A1 B2 C3` (after inversion) the row `A1 B2 C3` recurs 3 times and decodes
to the valid id 6764, but the finder result is 0, the row `00 00 00` decodes to the reserved
id 0, and the callback returns 0 without a Reading.  In general, when the winning row decodes
to a reserved id the callback returns 0 without a Reading, whatever the later rows are. -/
theorem no_fallback_to_later_row :
    (bitbuffer_invert
        [⟨24, [0xFF, 0xFF, 0xFF]⟩, ⟨24, [0xFF, 0xFF, 0xFF]⟩, ⟨24, [0xFF, 0xFF, 0xFF]⟩,
         ⟨24, [0x5E, 0x4D, 0x3C]⟩, ⟨24, [0x5E, 0x4D, 0x3C]⟩, ⟨24, [0x5E, 0x4D, 0x3C]⟩]
      = [⟨24, [0x00, 0x00, 0x00]⟩, ⟨24, [0x00, 0x00, 0x00]⟩, ⟨24, [0x00, 0x00, 0x00]⟩,
         ⟨24, [0xA1, 0xB2, 0xC3]⟩, ⟨24, [0xA1, 0xB2, 0xC3]⟩, ⟨24, [0xA1, 0xB2, 0xC3]⟩] ∧
      frame_count (normalized bitbuffer_invert
        [⟨24, [0xFF, 0xFF, 0xFF]⟩, ⟨24, [0xFF, 0xFF, 0xFF]⟩, ⟨24, [0xFF, 0xFF, 0xFF]⟩,
         ⟨24, [0x5E, 0x4D, 0x3C]⟩, ⟨24, [0x5E, 0x4D, 0x3C]⟩, ⟨24, [0x5E, 0x4D, 0x3C]⟩])
        ⟨24, [0xA1, 0xB2, 0xC3]⟩ = 3 ∧
      row_id ⟨24, [0xA1, 0xB2, 0xC3]⟩ = 6764 ∧
      frame_count (normalized bitbuffer_invert
        [⟨24, [0xFF, 0xFF, 0xFF]⟩, ⟨24, [0xFF, 0xFF, 0xFF]⟩, ⟨24, [0xFF, 0xFF, 0xFF]⟩,
         ⟨24, [0x5E, 0x4D, 0x3C]⟩, ⟨24, [0x5E, 0x4D, 0x3C]⟩, ⟨24, [0x5E, 0x4D, 0x3C]⟩])
        ⟨24, [0x00, 0x00, 0x00]⟩ = 3 ∧
      row_id ⟨24, [0x00, 0x00, 0x00]⟩ = 0 ∧
      winning_index bitbuffer_invert
        [⟨24, [0xFF, 0xFF, 0xFF]⟩, ⟨24, [0xFF, 0xFF, 0xFF]⟩, ⟨24, [0xFF, 0xFF, 0xFF]⟩,
         ⟨24, [0x5E, 0x4D, 0x3C]⟩, ⟨24, [0x5E, 0x4D, 0x3C]⟩, ⟨24, [0x5E, 0x4D, 0x3C]⟩] = 0 ∧
      smoke_gs558_callback bitbuffer_invert sample_time
        [⟨24, [0xFF, 0xFF, 0xFF]⟩, ⟨24, [0xFF, 0xFF, 0xFF]⟩, ⟨24, [0xFF, 0xFF, 0xFF]⟩,
         ⟨24, [0x5E, 0x4D, 0x3C]⟩, ⟨24, [0x5E, 0x4D, 0x3C]⟩, ⟨24, [0x5E, 0x4D, 0x3C]⟩]
        = (0, none)) ∧
    (∀ (invert : bitbuffer_t → bitbuffer_t) (time_str : String) (bitbuffer : bitbuffer_t),
      0 ≤ winning_index invert bitbuffer →
      (row_id (winning_row invert bitbuffer) = 0 ∨
        row_id (winning_row invert bitbuffer) = 0x7FFF) →
      smoke_gs558_callback invert time_str bitbuffer = (0, none)) := by
  refine ⟨by decide, ?_⟩
  intro invert time_str bitbuffer _ hid
  rw [callback_eq, decode_row_eq]
  by_cases hn : num_rows bitbuffer < 3
  · rw [if_pos hn]
  · rw [if_neg hn]
    by_cases hr : winning_index invert bitbuffer < 0
    · rw [if_pos hr]
    · rw [if_neg hr, if_pos hid]

theorem no_fallback_to_later_row_witness :
    0 ≤ winning_index bitbuffer_invert
        [⟨24, [0xFF, 0xFF, 0xFF]⟩, ⟨24, [0xFF, 0xFF, 0xFF]⟩, ⟨24, [0xFF, 0xFF, 0xFF]⟩,
         ⟨24, [0x5E, 0x4D, 0x3C]⟩, ⟨24, [0x5E, 0x4D, 0x3C]⟩, ⟨24, [0x5E, 0x4D, 0x3C]⟩] ∧
    (row_id (winning_row bitbuffer_invert
        [⟨24, [0xFF, 0xFF, 0xFF]⟩, ⟨24, [0xFF, 0xFF, 0xFF]⟩, ⟨24, [0xFF, 0xFF, 0xFF]⟩,
         ⟨24, [0x5E, 0x4D, 0x3C]⟩, ⟨24, [0x5E, 0x4D, 0x3C]⟩, ⟨24, [0x5E, 0x4D, 0x3C]⟩]) = 0 ∨
      row_id (winning_row bitbuffer_invert
        [⟨24, [0xFF, 0xFF, 0xFF]⟩, ⟨24, [0xFF, 0xFF, 0xFF]⟩, ⟨24, [0xFF, 0xFF, 0xFF]⟩,
         ⟨24, [0x5E, 0x4D, 0x3C]⟩, ⟨24, [0x5E, 0x4D, 0x3C]⟩, ⟨24, [0x5E, 0x4D, 0x3C]⟩])
        = 0x7FFF) ∧
    smoke_gs558_callback bitbuffer_invert sample_time
        [⟨24, [0xFF, 0xFF, 0xFF]⟩, ⟨24, [0xFF, 0xFF, 0xFF]⟩, ⟨24, [0xFF, 0xFF, 0xFF]⟩,
         ⟨24, [0x5E, 0x4D, 0x3C]⟩, ⟨24, [0x5E, 0x4D, 0x3C]⟩, ⟨24, [0x5E, 0x4D, 0x3C]⟩]
      = (0, none) :=
  ⟨by decide, by decide,
    no_fallback_to_later_row.2 bitbuffer_invert sample_time
      [⟨24, [0xFF, 0xFF, 0xFF]⟩, ⟨24, [0xFF, 0xFF, 0xFF]⟩, ⟨24, [0xFF, 0xFF, 0xFF]⟩,
       ⟨24, [0x5E, 0x4D, 0x3C]⟩, ⟨24, [0x5E, 0x4D, 0x3C]⟩, ⟨24, [0x5E, 0x4D, 0x3C]⟩]
      (by decide) (by decide)⟩

theorem and_32767 (x : Nat) : x &&& 32767 = x % 32768 := Nat.and_pow_two_sub_one_eq_mod x 15

/-- The fields decoded from three reversed bytes are bit fields of the 24-bit number
`r2 r1 r0`. -/
theorem fields_of_code_value (r0 r1 r2 : Nat) (h0 : r0 < 256) (h1 : r1 < 256) (h2 : r2 < 256) :
    r2 * 65536 + r1 * 256 + r0 < 2 ^ 24 ∧
    unit_of r0 = (r2 * 65536 + r1 * 256 + r0) &&& 0x1F ∧
    id_of r0 r1 r2 = ((r2 * 65536 + r1 * 256 + r0) >>> 5) &&& 0x7FFF ∧
    r2 * 65536 + r1 * 256 + r0 =
      ((((r2 * 65536 + r1 * 256 + r0) >>> 20) <<< 20) ||| (id_of r0 r1 r2 <<< 5))
        ||| unit_of r0 ∧
    (r2 * 65536 + r1 * 256 + r0) >>> 20 = r2 >>> 4 := by
  have hu : unit_of r0 = r0 % 32 := by unfold unit_of; exact and_31 r0
  have hi : id_of r0 r1 r2 = (r2 % 16) * 2048 + r1 * 8 + r0 / 32 := by
    rw [id_of_eq_add r0 r1 r2 h0 h1, and_15, Nat.shiftRight_eq_div_pow]
  have hult : unit_of r0 < 2 ^ 5 := by rw [hu]; omega
  have hmid : 2 ^ 5 * id_of r0 r1 r2 + unit_of r0 < 2 ^ 20 := by rw [hu, hi]; omega
  refine ⟨by omega, ?_, ?_, ?_, ?_⟩
  · rw [hu, and_31]; omega
  · rw [hi, and_32767, Nat.shiftRight_eq_div_pow]; omega
  · rw [Nat.or_assoc, Nat.shiftLeft_eq (id_of r0 r1 r2), Nat.mul_comm (id_of r0 r1 r2),
      ← Nat.mul_add_lt_is_or hult, Nat.shiftLeft_eq, Nat.mul_comm _ (2 ^ 20),
      ← Nat.mul_add_lt_is_or hmid, Nat.shiftRight_eq_div_pow, hu, hi]
    omega
  · rw [Nat.shiftRight_eq_div_pow, Nat.shiftRight_eq_div_pow]; omega

/-- C18: the fields of a Reading are mutually consistent.  With `C` the number read from the
code string in base 16, `C` has 24 bits, `unit = C & 0x1F`, `id = (C >> 5) & 0x7FFF` and
`C = (top << 20) | (id << 5) | unit` where `top = C >> 20` is the top nibble of the reversed
third byte. -/
theorem reading_fields_from_code (invert : bitbuffer_t → bitbuffer_t) (time_str : String)
    (bitbuffer : bitbuffer_t) (ret : Int) (d : data_t)
    (h : smoke_gs558_callback invert time_str bitbuffer = (ret, some d)) :
    hex_value d.code.toList < 2 ^ 24 ∧
    d.unit = hex_value d.code.toList &&& 0x1F ∧
    d.id = (hex_value d.code.toList >>> 5) &&& 0x7FFF ∧
    hex_value d.code.toList =
      (((hex_value d.code.toList >>> 20) <<< 20) ||| (d.id <<< 5)) ||| d.unit ∧
    hex_value d.code.toList >>> 20
      = reverse_byte (byte_at (winning_row invert bitbuffer) 2) >>> 4 ∧
    hex_value d.code.toList >>> 20 < 16 := by
  obtain ⟨_, _, _, hid, hunit, _, hcode, _, _⟩ :=
    callback_reading invert time_str bitbuffer ret d h
  have h0 := reverse_byte_lt (byte_at (winning_row invert bitbuffer) 0)
  have h1 := reverse_byte_lt (byte_at (winning_row invert bitbuffer) 1)
  have h2 := reverse_byte_lt (byte_at (winning_row invert bitbuffer) 2)
  have hv := code_of_value _ _ _ h0 h1 h2
  obtain ⟨f1, f2, f3, f4, f5⟩ := fields_of_code_value _ _ _ h0 h1 h2
  rw [hcode, hv, hunit, hid]
  refine ⟨f1, f2, f3, f4, f5, ?_⟩
  rw [f5, Nat.shiftRight_eq_div_pow]
  omega

theorem reading_fields_from_code_witness :
    smoke_gs558_callback bitbuffer_invert sample_time [⟨24, [0x5E, 0x4D, 0x3C]⟩,
        ⟨24, [0x5E, 0x4D, 0x3C]⟩, ⟨24, [0x5E, 0x4D, 0x3C]⟩]
      = (1, some ⟨sample_time, "Smoke detector GS 558", 6764, 5, 0, "c34d85"⟩) ∧
    hex_value ("c34d85" : String).toList = 0xC34D85 ∧
    (5 : Nat) = hex_value ("c34d85" : String).toList &&& 0x1F ∧
    (6764 : Nat) = (hex_value ("c34d85" : String).toList >>> 5) &&& 0x7FFF :=
  ⟨by decide, by decide,
    (reading_fields_from_code bitbuffer_invert sample_time
      [⟨24, [0x5E, 0x4D, 0x3C]⟩, ⟨24, [0x5E, 0x4D, 0x3C]⟩, ⟨24, [0x5E, 0x4D, 0x3C]⟩] 1
      ⟨sample_time, "Smoke detector GS 558", 6764, 5, 0, "c34d85"⟩ (by decide)).2.1,
    (reading_fields_from_code bitbuffer_invert sample_time
      [⟨24, [0x5E, 0x4D, 0x3C]⟩, ⟨24, [0x5E, 0x4D, 0x3C]⟩, ⟨24, [0x5E, 0x4D, 0x3C]⟩] 1
      ⟨sample_time, "Smoke detector GS 558", 6764, 5, 0, "c34d85"⟩ (by decide)).2.2.1⟩

/-! ## The checked callback -/

theorem read_byte_eq (row : bitrow) (i : Nat) (h : i < row.bb.length) :
    read_byte row i = some (byte_at row i) := by
  unfold read_byte byte_at
  rw [List.getD_eq_getElem?_getD, List.getElem?_eq_getElem h]
  rfl

theorem is_learn_row_checked_eq (row : bitrow)
    (h : 24 ≤ row.bits_per_row → 3 ≤ row.bb.length) :
    is_learn_row_checked row = some (is_learn_row row) := by
  unfold is_learn_row_checked is_learn_row
  by_cases hb : row.bits_per_row ≥ 24
  · have hl := h hb
    rw [if_pos hb, read_byte_eq row 0 (by omega), read_byte_eq row 1 (by omega),
      read_byte_eq row 2 (by omega)]
    simp only [Option.some_bind]
    by_cases h0 : byte_at row 0 = 0x55
    · by_cases h1 : byte_at row 1 = 0x55
      · simp [hb, h0, h1]
      · simp [hb, h0, h1]
    · simp [hb, h0]
  · rw [if_neg hb]
    simp [hb]

theorem normalize_row_checked_eq (learn : Nat) (row : bitrow)
    (h : (row.bits_per_row + 7) / 8 ≤ row.bb.length) :
    normalize_row_checked learn row = some (normalize_row learn row) := by
  unfold normalize_row_checked normalize_row
  rw [is_learn_row_checked_eq row (by omega)]
  simp only [Option.some_bind]
  by_cases hl : is_learn_row row = true
  · simp [hl]
  · have hl' : is_learn_row row = false := by simpa using hl
    simp only [hl', Bool.false_eq_true, if_false]
    by_cases h26 : row.bits_per_row = 26 ∨ row.bits_per_row = 27
    · rw [if_pos h26, read_byte_eq row 3 (by omega)]
      simp only [Option.some_bind]
      by_cases h3 : byte_at row 3 = 0
      · simp [h26, h3]
      · simp [h26, h3]
    · rw [if_neg h26]
      simp [h26]

theorem normalize_rows_checked_eq : ∀ (rows : List bitrow) (learn : Nat),
    rows_stored rows → normalize_rows_checked learn rows = some (normalize_rows learn rows) := by
  intro rows
  induction rows with
  | nil => intro learn _; rfl
  | cons row rest ih =>
    intro learn h
    rw [normalize_rows_checked, normalize_row_checked_eq learn row (h row (List.mem_cons_self _ _))]
    simp only [Option.some_bind]
    rw [ih _ (fun r hr => h r (List.mem_cons_of_mem _ hr))]
    rfl

theorem decode_row_checked_eq (time_str : String) (learn : Nat) (b : bitrow)
    (h : 3 ≤ b.bb.length) :
    decode_row_checked time_str learn b = some (decode_row time_str learn b) := by
  unfold decode_row_checked decode_row
  rw [read_byte_eq b 0 (by omega), read_byte_eq b 1 (by omega), read_byte_eq b 2 (by omega)]
  simp only [Option.some_bind]
  split <;> rfl

theorem callback_checked_eq (invert : bitbuffer_t → bitbuffer_t) (time_str : String)
    (bitbuffer : bitbuffer_t) (h : rows_stored (invert bitbuffer)) :
    smoke_gs558_callback_checked invert time_str bitbuffer
      = some (smoke_gs558_callback invert time_str bitbuffer) := by
  rw [callback_eq]
  unfold smoke_gs558_callback_checked
  by_cases hn : num_rows bitbuffer < 3
  · rw [if_pos hn, if_pos hn]
  · rw [if_neg hn, if_neg hn]
    simp only []
    rw [normalize_rows_checked_eq (invert bitbuffer) 0 h]
    simp only [Option.some_bind]
    by_cases hr : winning_index invert bitbuffer < 0
    · have hr' : bitbuffer_find_repeated_row (normalize_rows 0 (invert bitbuffer)).2 3 24 < 0 := hr
      rw [if_pos hr, if_pos hr']
    · have hr' : ¬ bitbuffer_find_repeated_row (normalize_rows 0 (invert bitbuffer)).2 3 24 < 0 :=
        hr
      rw [if_neg hr, if_neg hr']
      obtain ⟨hbits, hget, row, hrow, hbb, _, hrb⟩ :=
        winning_row_origin invert bitbuffer (by omega)
      have hget' : (normalize_rows 0 (invert bitbuffer)).2[
          (bitbuffer_find_repeated_row (normalize_rows 0 (invert bitbuffer)).2 3 24).toNat]?
          = some (winning_row invert bitbuffer) := hget
      rw [hget']
      simp only [Option.some_bind]
      have hst := h row hrow
      have hlen : 3 ≤ (winning_row invert bitbuffer).bb.length := by
        rw [hbb]
        rcases hrb with h24 | h26 | h27 <;> omega
      exact decode_row_checked_eq time_str _ _ hlen

/-- C15: under the precondition that every row (after inversion) stores at least
`ceil(bit-length / 8)` bytes, the callback with all accesses to the row storage checked never
faults and gives the result of the callback; a row shorter than 24 bits is not read at all;
the value returned is 0 or 1 for every burst, and each of the three rejection paths (fewer
than 3 rows, no majority row, reserved id) returns 0 without a Reading. -/
theorem callback_never_faults :
    (∀ (invert : bitbuffer_t → bitbuffer_t) (time_str : String) (bitbuffer : bitbuffer_t),
      rows_stored (invert bitbuffer) →
      smoke_gs558_callback_checked invert time_str bitbuffer
        = some (smoke_gs558_callback invert time_str bitbuffer)) ∧
    (∀ (learn : Nat) (row : bitrow), row.bits_per_row < 24 →
      normalize_row_checked learn row = some (learn, row)) ∧
    (∀ (invert : bitbuffer_t → bitbuffer_t) (time_str : String) (bitbuffer : bitbuffer_t),
      (smoke_gs558_callback invert time_str bitbuffer).1 = 0 ∨
      (smoke_gs558_callback invert time_str bitbuffer).1 = 1) ∧
    (∀ (invert : bitbuffer_t → bitbuffer_t) (time_str : String) (bitbuffer : bitbuffer_t),
      num_rows bitbuffer < 3 → smoke_gs558_callback invert time_str bitbuffer = (0, none)) ∧
    (∀ (invert : bitbuffer_t → bitbuffer_t) (time_str : String) (bitbuffer : bitbuffer_t),
      winning_index invert bitbuffer < 0 →
      smoke_gs558_callback invert time_str bitbuffer = (0, none)) ∧
    (∀ (invert : bitbuffer_t → bitbuffer_t) (time_str : String) (bitbuffer : bitbuffer_t),
      (row_id (winning_row invert bitbuffer) = 0 ∨
        row_id (winning_row invert bitbuffer) = 0x7FFF) →
      smoke_gs558_callback invert time_str bitbuffer = (0, none)) := by
  refine ⟨callback_checked_eq, ?_, ?_, ?_, ?_, ?_⟩
  · intro learn row hb
    unfold normalize_row_checked is_learn_row_checked
    rw [if_neg (by omega)]
    simp only [Option.some_bind, Bool.false_eq_true, if_false]
    rw [if_neg (by omega)]
  · intro invert time_str bitbuffer
    rw [callback_eq, decode_row_eq]
    split
    · exact Or.inl rfl
    · split
      · exact Or.inl rfl
      · split
        · exact Or.inl rfl
        · exact Or.inr rfl
  · intro invert time_str bitbuffer hn
    rw [callback_eq, if_pos hn]
  · intro invert time_str bitbuffer hr
    rw [callback_eq, if_pos hr]
    split <;> rfl
  · intro invert time_str bitbuffer hid
    rw [callback_eq, decode_row_eq, if_pos hid]
    split
    · rfl
    · split <;> rfl

theorem callback_never_faults_witness :
    rows_stored (bitbuffer_invert [⟨12, [0x5E, 0x40]⟩, ⟨24, [0x5E, 0x4D, 0x3C]⟩,
      ⟨27, [0x5E, 0x4D, 0x3C, 0xE0]⟩, ⟨24, [0xAA, 0xAA, 0xAA]⟩, ⟨24, [0x5E, 0x4D, 0x3C]⟩]) ∧
    smoke_gs558_callback_checked bitbuffer_invert sample_time
      [⟨12, [0x5E, 0x40]⟩, ⟨24, [0x5E, 0x4D, 0x3C]⟩, ⟨27, [0x5E, 0x4D, 0x3C, 0xE0]⟩,
        ⟨24, [0xAA, 0xAA, 0xAA]⟩, ⟨24, [0x5E, 0x4D, 0x3C]⟩]
      = some (smoke_gs558_callback bitbuffer_invert sample_time
        [⟨12, [0x5E, 0x40]⟩, ⟨24, [0x5E, 0x4D, 0x3C]⟩, ⟨27, [0x5E, 0x4D, 0x3C, 0xE0]⟩,
          ⟨24, [0xAA, 0xAA, 0xAA]⟩, ⟨24, [0x5E, 0x4D, 0x3C]⟩]) ∧
    smoke_gs558_callback bitbuffer_invert sample_time
      [⟨12, [0x5E, 0x40]⟩, ⟨24, [0x5E, 0x4D, 0x3C]⟩, ⟨27, [0x5E, 0x4D, 0x3C, 0xE0]⟩,
        ⟨24, [0xAA, 0xAA, 0xAA]⟩, ⟨24, [0x5E, 0x4D, 0x3C]⟩]
      = (1, some ⟨sample_time, "Smoke detector GS 558", 6764, 5, 0, "c34d85"⟩) ∧
    smoke_gs558_callback_checked bitbuffer_invert sample_time
      [⟨24, [0xAA, 0xAA]⟩, ⟨24, [0x5E, 0x4D, 0x3C]⟩, ⟨24, [0x5E, 0x4D, 0x3C]⟩] = none :=
  ⟨by decide,
    callback_never_faults.1 bitbuffer_invert sample_time
      [⟨12, [0x5E, 0x40]⟩, ⟨24, [0x5E, 0x4D, 0x3C]⟩, ⟨27, [0x5E, 0x4D, 0x3C, 0xE0]⟩,
        ⟨24, [0xAA, 0xAA, 0xAA]⟩, ⟨24, [0x5E, 0x4D, 0x3C]⟩] (by decide),
    by decide, by decide⟩

end smoke_gs558
